import Mathlib

/-!
# Verification of the kpkg installer-identity core

Shallow embedding of the identity-resolution core of `kpkg`
(`src/helpers/utils.py`, `src/helpers/configs.py`): the similarity
matcher `_find_lib_item_dynamic` / `_find_lib_item_match`, the
package-manifest locator `_pkg_metadata_find_return`, the disk-image
attach helper `_dmg_attach`, the name normalizer used by
`get_install_media_metadata`, and the enforcement-name translation
`_parse_enforcement`.

Conventions of the embedding:
* Python strings are Lean `String`s; most work happens on `String.data`
  (`List Char`).  Python's `\w`/`\s` character classes are modelled over
  ASCII, which is what the processed filenames contain.
* Python floats are modelled by exact rationals `ℚ` (the similarity
  ratio `2*M/T` and the `0.85` threshold).
* Python `sorted(key, reverse=True)` (a stable sort) is modelled by
  `List.insertionSort` with the reflexive total relation
  "key of the left element ≥ key of the right element": for that
  relation `insertionSort` keeps the original order of key-equal
  elements, exactly like CPython's stable sort with `reverse=True`.
* Python dicts keyed by filename are modelled as association lists
  deduplicated on the key (first occurrence kept; every value in these
  dicts is a pure function of its key, so overwriting a duplicate key
  never changes the stored value).
* Fallible paths return `Option`/`Except` (`none` models `return False`
  after a caught `StopIteration`).
-/

namespace Kpkg

/-! ## Generic string/list helpers (Python `in`, `os.path.basename`, dict order) -/

/-- Python's substring test `needle in hay` on character lists. -/
def substrB (needle hay : List Char) : Bool :=
  hay.tails.any (fun t => needle.isPrefixOf t)

/-- `os.path.basename`: the part of the path after the last `/`. -/
def basenameL (l : List Char) : List Char :=
  (l.reverse.takeWhile (fun c => c ≠ '/')).reverse

def basename (s : String) : String := String.mk (basenameL s.data)

/-- Keys of a Python dict built by repeated assignment: first-occurrence
order, later duplicate keys dropped (their values are always identical
to the first one's in this code, being pure functions of the key).
`seen` accumulates the keys already emitted. -/
def dedupKeysAux {α : Type} (seen : List String) : List (String × α) → List (String × α)
  | [] => []
  | (k, v) :: rest =>
    if k ∈ seen then dedupKeysAux seen rest
    else (k, v) :: dedupKeysAux (k :: seen) rest

def dedupKeys {α : Type} (l : List (String × α)) : List (String × α) :=
  dedupKeysAux [] l

/-- First-occurrence deduplication of a list of strings (models the
distinct elements of a Python set built from the list; the iteration
order of a CPython set is unspecified, the model fixes first-occurrence
order — the value agrees with CPython whenever all elements are equal). -/
def dedupStrAux (seen : List String) : List String → List String
  | [] => []
  | s :: rest =>
    if s ∈ seen then dedupStrAux seen rest
    else s :: dedupStrAux (s :: seen) rest

def dedupStr (l : List String) : List String := dedupStrAux [] l

/-! ## `Configurator._parse_enforcement` (src/helpers/configs.py:55-70)

Translates a configured enforcement value between config values and
API-valid values.  Python returns `False` for unrecognized input; the
model returns `none`. -/

/-- Python `str.lower()`: lowercase every character (ASCII suffices for
the values this code handles). -/
def strLower (s : String) : String := String.mk (s.data.map Char.toLower)

def parse_enforcement (enforcement : String) : Option String :=
  let e := strLower enforcement
  if e = "audit_enforce" then some "continuously_enforce"
  else if e = "self_service" then some "no_enforcement"
  else if e = "continuously_enforce" then some "audit_enforce"
  else if e = "no_enforcement" then some "self_service"
  else if e = "install_once" then some "install_once"
  else none

/-- The five enforcement spellings `_parse_enforcement` recognizes. -/
def recognizedEnforcements : List String :=
  ["audit_enforce", "self_service", "continuously_enforce", "no_enforcement", "install_once"]

/-! ## The name-only regex of `get_install_media_metadata`
(src/helpers/configs.py:345-356)

`(?:[a-f0-9]{64}--)?([\w\s]+?)(?=\s+\d+\.\d+|[.-])` applied with
`re.search`; on no match the raw name passes through unchanged.  The
matcher below implements exactly this pattern: leftmost start position,
greedy optional hex prefix (with backtracking to the prefix-less
alternative), shortest-first (non-greedy) expansion of the capture,
and the two-armed lookahead. -/

def isWordCharP (c : Char) : Bool :=
  ('a' ≤ c && c ≤ 'z') || ('A' ≤ c && c ≤ 'Z') || c.isDigit || c = '_'

def isSpaceCharP (c : Char) : Bool :=
  c = ' ' || c = '\t' || c = '\n' || c = '\x0b' || c = '\x0c' || c = '\r'

def isWS (c : Char) : Bool := isWordCharP c || isSpaceCharP c

/-- Lookahead arm `\s+\d+\.\d+`: one or more spaces, one or more digits,
a literal dot, one or more digits.  The classes `\s`, `\d` and `.` are
pairwise disjoint here, so maximal munch needs no backtracking. -/
def lookVers (l : List Char) : Bool :=
  match l with
  | [] => false
  | c :: rest =>
    if isSpaceCharP c then
      match rest.dropWhile isSpaceCharP with
      | [] => false
      | d :: r2 =>
        d.isDigit &&
          (match r2.dropWhile Char.isDigit with
           | '.' :: d2 :: _ => d2.isDigit
           | _ => false)
    else false

/-- Lookahead arm `[.-]`. -/
def lookDotDash (l : List Char) : Bool :=
  match l with
  | c :: _ => c = '.' || c = '-'
  | [] => false

def lookahead (l : List Char) : Bool := lookVers l || lookDotDash l

/-- Non-greedy `([\w\s]+?)(?=\s+\d+\.\d+|[.-])` anchored at the head of
`l`: shortest capture (length ≥ 1) whose following context satisfies the
lookahead. -/
def tryCapture : List Char → Option (List Char)
  | [] => none
  | c :: rest =>
    if isWS c then
      if lookahead rest then some [c]
      else
        match tryCapture rest with
        | some g => some (c :: g)
        | none => none
    else none

def isHexL (c : Char) : Bool := c.isDigit || ('a' ≤ c && c ≤ 'f')

/-- `(?:[a-f0-9]{64}--)` anchored at the head: 64 lowercase-hex chars
followed by `--`; returns the remainder after the prefix. -/
def tryHexPrefix (l : List Char) : Option (List Char) :=
  let pre := l.take 64
  if pre.length = 64 && pre.all isHexL then
    match l.drop 64 with
    | '-' :: '-' :: rest => some rest
    | _ => none
  else none

/-- One anchored match attempt: greedy optional prefix first, then
backtrack to the prefix-less reading. -/
def matchAt (l : List Char) : Option (List Char) :=
  match tryHexPrefix l with
  | some rest =>
    match tryCapture rest with
    | some g => some g
    | none => tryCapture l
  | none => tryCapture l

/-- `re.search`: try every start position left to right. -/
def searchName : List Char → Option (List Char)
  | [] => none
  | c :: rest =>
    match matchAt (c :: rest) with
    | some g => some g
    | none => searchName rest

/-- The Name Normalizer: `re.search(name_only_pattern, name).group(1)`,
with the raw name passed through when the search finds no match. -/
def normalizeName (s : String) : String :=
  match searchName s.data with
  | some g => String.mk g
  | none => s

/-! ## `difflib.SequenceMatcher` (used at src/helpers/utils.py:686-688)

Model of CPython's `SequenceMatcher(None, a, b).ratio()` for character
sequences, without junk.  (`autojunk` only creates junk when `b` has at
least 200 elements; the filenames compared here are far shorter, so the
junk machinery is dead and the junk-extension passes of
`find_longest_match` reduce to the two plain extension passes kept
below.)  `ratio` is `2*M/T` where `M` is the total size of the matching
blocks and `T` the total length; CPython computes it in floating point,
the model uses exact rationals. -/

structure Best where
  besti : Nat
  bestj : Nat
  bestsize : Nat
deriving Repr, DecidableEq

/-- `b2j`-lookup: the increasing list of positions of `c` in `b`. -/
def posList (b : List Char) (c : Char) : List Nat :=
  (List.range b.length).filter (fun j => b.get? j == some c)

/-- The value the DP writes for column `j` given the previous row:
`j2len.get(j-1, 0) + 1` (a fresh chain when `j = 0`). -/
def rowVal (j2len : Nat → Nat) (j : Nat) : Nat :=
  (if j = 0 then 0 else j2len (j - 1)) + 1

/-- Inner loop of `find_longest_match` for one `i`: walk the positions
of `a[i]` in `b` in increasing order, skipping `j < blo`, breaking at
`j ≥ bhi`, building the new row and updating the best block on strict
improvement. -/
def innerLoop (i blo bhi : Nat) (j2len : Nat → Nat) :
    List Nat → Best → (Nat → Nat) → Best × (Nat → Nat)
  | [], best, nj => (best, nj)
  | j :: js, best, nj =>
    if j < blo then innerLoop i blo bhi j2len js best nj
    else if bhi ≤ j then (best, nj)
    else
      innerLoop i blo bhi j2len js
        (if best.bestsize < rowVal j2len j then
          ⟨i + 1 - rowVal j2len j, j + 1 - rowVal j2len j, rowVal j2len j⟩
         else best)
        (fun j' => if j' = j then rowVal j2len j else nj j')

/-- Outer loop of `find_longest_match`: one inner pass per `i`, each
starting from an empty new row. -/
def outerLoop (a b : List Char) (blo bhi : Nat) :
    List Nat → Best × (Nat → Nat) → Best × (Nat → Nat)
  | [], st => st
  | i :: is, st =>
    let st' := innerLoop i blo bhi st.2 (posList b (a.getD i 'A')) st.1 (fun _ => 0)
    outerLoop a b blo bhi is st'

/-- First extension pass: grow the best block leftwards while both
neighbours are in range and equal (`fuel` bounds the iteration count;
`besti - alo` steps suffice since `besti` decreases each step). -/
def extendLeft (a b : List Char) (alo blo : Nat) : Nat → Best → Best
  | 0, f => f
  | fuel + 1, f =>
    if alo < f.besti && blo < f.bestj &&
        (a.getD (f.besti - 1) 'A' == b.getD (f.bestj - 1) 'A') then
      extendLeft a b alo blo fuel ⟨f.besti - 1, f.bestj - 1, f.bestsize + 1⟩
    else f

/-- Second extension pass: grow the best block rightwards. -/
def extendRight (a b : List Char) (ahi bhi : Nat) : Nat → Best → Best
  | 0, f => f
  | fuel + 1, f =>
    if f.besti + f.bestsize < ahi && f.bestj + f.bestsize < bhi &&
        (a.getD (f.besti + f.bestsize) 'A' == b.getD (f.bestj + f.bestsize) 'A') then
      extendRight a b ahi bhi fuel ⟨f.besti, f.bestj, f.bestsize + 1⟩
    else f

/-- `find_longest_match(alo, ahi, blo, bhi)` without junk. -/
def findLongestMatch (a b : List Char) (alo ahi blo bhi : Nat) : Best :=
  let best := (outerLoop a b blo bhi (List.range' alo (ahi - alo)) (⟨alo, blo, 0⟩, fun _ => 0)).1
  let best := extendLeft a b alo blo best.besti best
  extendRight a b ahi bhi (ahi - (best.besti + best.bestsize)) best

/-- Total size of the matching blocks of `get_matching_blocks`,
computed by the usual divide-and-conquer around the longest match.
`fuel` bounds the recursion depth; every recursive call strictly
shrinks `(ahi - alo) + (bhi - blo)`, so the initial fuel
`a.length + b.length + 1` is never exhausted. -/
def matchedTotal (a b : List Char) : Nat → Nat → Nat → Nat → Nat → Nat
  | 0, _, _, _, _ => 0
  | fuel + 1, alo, ahi, blo, bhi =>
    let f := findLongestMatch a b alo ahi blo bhi
    if f.bestsize = 0 then 0
    else
      matchedTotal a b fuel alo f.besti blo f.bestj + f.bestsize +
        matchedTotal a b fuel (f.besti + f.bestsize) ahi (f.bestj + f.bestsize) bhi

/-- `sum(block.size for block in get_matching_blocks())`. -/
def seqMatches (a b : List Char) : Nat :=
  matchedTotal a b (a.length + b.length + 1) 0 a.length 0 b.length

/-- `SequenceMatcher.ratio() = 2.0 * matches / (len(a) + len(b))` as an
exact rational.  (CPython raises `ZeroDivisionError` when both inputs
are empty; the model's division by zero yields `0`, a case no caller
exercises since catalog candidates always end in `.pkg`.) -/
def seqRatio (a b : List Char) : ℚ :=
  ((2 * seqMatches a b : Nat) : ℚ) / ((a.length + b.length : Nat) : ℚ)

/-- The same ratio kept as an unreduced numerator/denominator pair, for
executable comparisons. -/
def seqRatioPair (a b : List Char) : Nat × Nat :=
  (2 * seqMatches a b, a.length + b.length)

/-- Comparison of two nonnegative fractions by cross-multiplication:
`x ≤ y`.  For positive denominators this coincides with the rational
(and hence, over the value ranges at play, floating-point) comparison
of the quotients. -/
def fracLe (x y : Nat × Nat) : Bool := decide (x.1 * y.2 ≤ y.1 * x.2)

/-! ## Random-token stripping (src/helpers/utils.py:685-688)

`re.sub(r"_\w{8}(?=.pkg)", "", pkg)`: remove every `_` followed by
eight word characters whose following four characters are any char then
`pkg` (the `.` of the pattern is an unescaped wildcard).  `re.sub`
scans left to right, non-overlapping, resuming after each match. -/

/-- The lookahead `(?=.pkg)`: some char followed by `p`, `k`, `g`. -/
def lookPkg : List Char → Bool
  | _ :: 'p' :: 'k' :: 'g' :: _ => true
  | _ => false

def stripToken : List Char → List Char
  | [] => []
  | '_' :: c1 :: c2 :: c3 :: c4 :: c5 :: c6 :: c7 :: c8 :: rest =>
    if (isWordCharP c1 && isWordCharP c2 && isWordCharP c3 && isWordCharP c4 &&
        isWordCharP c5 && isWordCharP c6 && isWordCharP c7 && isWordCharP c8) &&
        lookPkg rest then
      stripToken rest
    else
      '_' :: stripToken (c1 :: c2 :: c3 :: c4 :: c5 :: c6 :: c7 :: c8 :: rest)
  | c :: rest => c :: stripToken rest

/-- Similarity score of one catalog candidate against the target:
`SequenceMatcher(None, re.sub(token, "", pkg), self.pkg_name).ratio()`.
Note only the catalog side is token-stripped. -/
def simScore (target pkg : String) : ℚ :=
  seqRatio (stripToken pkg.data) target.data

/-- The same score as a numerator/denominator pair. -/
def simScorePair (target pkg : String) : Nat × Nat :=
  seqRatioPair (stripToken pkg.data) target.data

/-! ## Version sanitization pipeline (src/helpers/utils.py:694, 715-722)

`re_replacements`, applied in insertion order by `reduce`:
token removal → `[ ]` → `.` → drop `[^0-9\.]` → collapse `[.]{2,}` →
trim `^\.|\.$`. -/

def replaceSpaces (l : List Char) : List Char :=
  l.map (fun c => if c = ' ' then '.' else c)

def keepDigitsDots (l : List Char) : List Char :=
  l.filter (fun c => c.isDigit || c = '.')

/-- `re.sub(r"[.]{2,}", ".", s)`: each maximal run of two or more dots
becomes a single dot (`prevDot` records whether the previous character
was a dot, i.e. whether we are inside a run). -/
def collapseDotsAux (prevDot : Bool) : List Char → List Char
  | [] => []
  | c :: rest =>
    if c = '.' then
      if prevDot then collapseDotsAux true rest
      else '.' :: collapseDotsAux true rest
    else c :: collapseDotsAux false rest

def collapseDots (l : List Char) : List Char := collapseDotsAux false l

/-- `re.sub(r"^\.|\.$", "", s)`: one leading and one trailing dot are
removed (after collapsing there is at most one of each). -/
def trimDots (l : List Char) : List Char :=
  let l1 := match l with
    | '.' :: rest => rest
    | _ => l
  match l1.reverse with
  | '.' :: r => r.reverse
  | _ => l1

/-- The full sanitized-version string for one candidate filename. -/
def sanitizeVersion (s : String) : String :=
  String.mk (trimDots (collapseDots (keepDigitsDots (replaceSpaces (stripToken s.data)))))

/-! ## Semantic version parsing (`pip._vendor.packaging.version.parse`)

The sanitized strings fed to `parse` consist of digit groups separated
by single dots (or are empty, on which CPython's `parse` raises
`InvalidVersion` and the run dies; the model maps it to `[]`).  On such
strings `parse` yields a pure release tuple, and PEP 440 compares
release tuples by padding the shorter with zeros and comparing
lexicographically. -/

def splitDots (l : List Char) : List (List Char) :=
  l.foldr (fun c groups =>
    match groups with
    | [] => if c = '.' then [[], []] else [[c]]
    | g :: gs => if c = '.' then [] :: g :: gs else (c :: g) :: gs) []

def digitsToNat (l : List Char) : Nat :=
  l.foldl (fun acc c => acc * 10 + (c.toNat - '0'.toNat)) 0

def parseRelease (s : String) : List Nat :=
  if s.data = [] then [] else (splitDots s.data).map digitsToNat

/-- Zero-padded lexicographic comparison of release tuples: the
shorter side is compared as if padded with zeros (a missing entry on
the left is `0`, which never exceeds anything, so `[] ≤ bs` always;
against an empty right side the left must be all zeros). -/
def verLe : List Nat → List Nat → Bool
  | [], _ => true
  | a :: as, [] => if 0 < a then false else verLe as []
  | a :: as, b :: bs => if a < b then true else if b < a then false else verLe as bs

/-! ## Kandji API timestamps (`parse_dt`, src/helpers/utils.py:670-675)

`datetime.strptime(s, "%Y-%m-%dT%H:%M:%S.%fZ")` (fallback without
`.%f`) then `.astimezone()`.  Comparison of the resulting datetimes is
the lexicographic order on
(year, month, day, hour, minute, second, microsecond); `%f` right-pads
fractional digits to microseconds; `.astimezone` applies the same
order-preserving shift to every value.  The model extracts the digit
runs of the timestamp and compares those tuples. -/

/-- The maximal digit runs of a string, as (value, run length) pairs.
`cur` carries the value and length of the run currently being read. -/
def digitRunsAux (cur : Option (Nat × Nat)) : List Char → List (Nat × Nat)
  | [] =>
    match cur with
    | some r => [r]
    | none => []
  | c :: rest =>
    if c.isDigit then
      match cur with
      | some (v, len) => digitRunsAux (some (v * 10 + (c.toNat - '0'.toNat), len + 1)) rest
      | none => digitRunsAux (some (c.toNat - '0'.toNat, 1)) rest
    else
      match cur with
      | some r => r :: digitRunsAux none rest
      | none => digitRunsAux none rest

def digitRuns (l : List Char) : List (Nat × Nat) := digitRunsAux none l

/-- `parse_dt` as a comparison key: the seven fields
(year, month, day, hour, minute, second, microsecond), the fractional
run right-padded to six digits per `%f`, missing fields zero. -/
def parse_dt (s : String) : List Nat :=
  let runs := digitRuns s.data
  let fields := runs.take 6 |>.map (·.1)
  let frac := match runs.drop 6 with
    | (v, len) :: _ => v * 10 ^ (6 - len)
    | [] => 0
  (fields ++ List.replicate (6 - fields.length) 0) ++ [frac]

/-- Strict lexicographic order on equal-length `Nat` tuples (the order
of Python tuples of datetimes). -/
def lexLtB : List Nat → List Nat → Bool
  | _, [] => false
  | [], _ :: _ => true
  | a :: as, b :: bs => if a < b then true else if b < a then false else lexLtB as bs

/-! ## Catalog snapshot (the `self.custom_apps` records of the Kandji API)

Fields used by `_find_lib_item_match` / `_find_lib_item_dynamic`. -/

structure CustomApp where
  id : String
  name : String
  file_key : String
  file_updated : String
  updated_at : String
  created_at : String
  show_in_self_service : Bool
  self_service_category_id : Option String
deriving Repr, DecidableEq

/-! ## `_find_lib_item_dynamic` (src/helpers/utils.py:660-779)

Each `def` below is one labelled stage of the Python function, composed
at the end by `find_lib_item_dynamic`. -/

/-- `all_pkg_names`: basenames of catalog `file_key`s ending in `.pkg`. -/
def allPkgNames (apps : List CustomApp) : List String :=
  (apps.filter (fun app => ".pkg".data.isSuffixOf app.file_key.data)).map
    (fun app => basename app.file_key)

/-- `similarity_scores`: dict from candidate name to its ratio against
the target (kept as an exact fraction pair). -/
def similarityScores (apps : List CustomApp) (target : String) : List (String × Nat × Nat) :=
  dedupKeys ((allPkgNames apps).map (fun p => (p, simScorePair target p)))

/-- `sorted_similar_pkgs`: the score dict stably sorted by score,
descending. -/
def sortedSimilarPkgs (apps : List CustomApp) (target : String) : List (String × Nat × Nat) :=
  (similarityScores apps target).insertionSort (fun x y => fracLe y.2 x.2)

/-- `ratio_limit = 0.85`. -/
def ratioLimit : ℚ := 17 / 20

/-- `ratio_limit` as a fraction pair. -/
def ratioLimitPair : Nat × Nat := (17, 20)

/-- `possible_pkgs`: candidates at or above the similarity threshold
(`sorted_similar_pkgs.get(pkg) >= ratio_limit`). -/
def possiblePkgs (apps : List CustomApp) (target : String) : List String :=
  ((sortedSimilarPkgs apps target).filter (fun p => fracLe ratioLimitPair p.2)).map (·.1)

/-- `matching_pkgs`: for each hinted record, the candidates whose name
occurs inside that record's `file_key` (outer loop over hints, inner
generator over candidates, `extend` = append). -/
def matchingPkgs (possible_apps : List CustomApp) (pkgs : List String) : List String :=
  possible_apps.flatMap (fun hint => pkgs.filter (fun p => substrB p.data hint.file_key.data))

/-- The hint step: `possible_pkgs` is reassigned to `matching_pkgs`
only when the latter is nonempty. -/
def hintedPkgs (possible_apps : List CustomApp) (pkgs : List String) : List String :=
  if possible_apps = [] then pkgs
  else if matchingPkgs possible_apps pkgs = [] then pkgs
  else matchingPkgs possible_apps pkgs

/-- `provided_app_name = "".join({p.get("name") for p in possible_apps})`:
the concatenation of the distinct hinted names (`none` when no hints
were given).  CPython iterates the set in unspecified order; the model
uses first-occurrence order, which coincides whenever the hinted names
are all equal — the case the code comments assume. -/
def providedAppName (possible_apps : List CustomApp) : Option String :=
  if possible_apps = [] then none
  else some (String.join (dedupStr (possible_apps.map (·.name))))

/-- `pkgs_versions`: dict from surviving candidate to its sanitized
version string. -/
def pkgsVersions (pkgs : List String) : List (String × String) :=
  dedupKeys (pkgs.map (fun p => (p, sanitizeVersion p)))

/-- `pkgs_versions_sorted`: stably sorted by parsed semantic version,
descending. -/
def pkgsVersionsSorted (pkgs : List String) : List (String × String) :=
  (pkgsVersions pkgs).insertionSort
    (fun x y => verLe (parseRelease y.2) (parseRelease x.2))

/-- `highest_vers`: the candidates whose sanitized version string
contains the top candidate's version string as a substring
(`custom_pkg_vers in pkgs_versions_sorted.get(pkg)`). -/
def highestVers (sortedPV : List (String × String)) (topVers : String) : List String :=
  (sortedPV.filter (fun pv => substrB topVers.data pv.2.data)).map (·.1)

/-- `pkg_custom_app_updated`: for each tied candidate, the
`file_updated` / `updated_at` pair of the first catalog record whose
`file_key` contains it (candidates with no record are skipped, mirroring
the swallowed `StopIteration`). -/
def pkgCustomAppUpdated (apps : List CustomApp) (hv : List String) :
    List (String × String × String) :=
  hv.filterMap (fun p =>
    (apps.find? (fun a => substrB p.data a.file_key.data)).map
      (fun a => (p, a.file_updated, a.updated_at)))

/-- The `min(...)` key: `(parse_dt(pkg_uploaded), parse_dt(custom_li_modified))`,
a lexicographic pair of equal-length tuples, flattened. -/
def dtPairKey (r : String × String × String) : List Nat :=
  parse_dt r.2.1 ++ parse_dt r.2.2

/-- The fold at the heart of Python `min(..., key=...)`: keep the
current minimum, replacing it only on strictly smaller key — so the
first entry attaining the minimum wins. -/
def minFold {α : Type} (key : α → List Nat) (r : α) (rs : List α) : α :=
  rs.foldl (fun best cur => if lexLtB (key cur) (key best) then cur else best) r

/-- `min(dict, key=...)`: the first entry attaining the minimal key
(`none` only on an empty dict, where CPython would raise `ValueError`;
the calling context always passes a nonempty one). -/
def oldestApp (recs : List (String × String × String)) : Option String :=
  match recs with
  | [] => none
  | r :: rs => some ((minFold dtPairKey r rs).1)

/-- `_find_lib_item_dynamic(possible_apps)`: `none` models the
`return False` taken when a `StopIteration` escapes from `next`. -/
def find_lib_item_dynamic (apps : List CustomApp) (pkg_name : String)
    (possible_apps : List CustomApp) : Option CustomApp :=
  let pkgs := hintedPkgs possible_apps (possiblePkgs apps pkg_name)
  let provided := providedAppName possible_apps
  match pkgsVersionsSorted pkgs with
  | [] => none
  | (topName, topVers) :: _ =>
    let hv := highestVers (pkgsVersionsSorted pkgs) topVers
    let custom_pkg_name :=
      if 1 < hv.length then (oldestApp (pkgCustomAppUpdated apps hv)).getD topName
      else topName
    let matching_entry := apps.filter (fun a => substrB custom_pkg_name.data a.file_key.data)
    let matching_entry :=
      if 1 < matching_entry.length then
        match provided with
        | some pn => matching_entry.filter (fun a => substrB pn.data a.name.data)
        | none => matching_entry
      else matching_entry
    matching_entry.head?

/-! ## `_find_lib_item_match` (src/helpers/utils.py:596-658) -/

/-- The fields of the `Utilities` instance this search reads. -/
structure MatchCtx where
  custom_apps : List CustomApp
  custom_app_name : String
  pkg_name : String
  default_auto_create : Bool
  default_dynamic_lookup : Bool
  ss_category_id : Option String
  custom_app_enforcement : String
deriving Repr

inductive MatchResult where
  /-- an existing catalog record was selected for update -/
  | found : CustomApp → MatchResult
  /-- Python `return False`: no usable match -/
  | noMatch : MatchResult
  /-- Python `raise Exception` after the duplicate report -/
  | duplicates : MatchResult
deriving Repr, DecidableEq

/-- Truthiness of an optional string (`if self.ss_category_id and ...`). -/
def optTruthy : Option String → Bool
  | none => false
  | some s => s ≠ ""

def find_lib_item_match (ctx : MatchCtx) : MatchResult :=
  let app_picker := ctx.custom_apps.filter (fun a => a.name = ctx.custom_app_name)
  if app_picker.isEmpty then
    if ctx.default_auto_create then .noMatch
    else if ctx.default_dynamic_lookup then
      match find_lib_item_dynamic ctx.custom_apps ctx.pkg_name [] with
      | some app => .found app
      | none => .noMatch
    else .noMatch
  else if 1 < app_picker.length then
    let app_picker_by_ss :=
      if optTruthy ctx.ss_category_id && (ctx.custom_app_enforcement == "no_enforcement") then
        app_picker.filter (fun a =>
          a.show_in_self_service && (a.self_service_category_id == ctx.ss_category_id))
      else []
    match app_picker_by_ss with
    | [a] => .found a
    | _ =>
      if ctx.default_dynamic_lookup then
        match find_lib_item_dynamic ctx.custom_apps ctx.pkg_name app_picker with
        | some app => .found app
        | none => .noMatch
      else .duplicates
  else
    match app_picker.head? with
    | some a => .found a
    | none => .noMatch

/-! State-passing forms for the frame property: the catalog snapshot is
the only cross-cycle state these searches touch; the second component
is the snapshot as left behind by the call, built by threading it
through every stage (none of which writes it — the Python methods
contain no assignment to `self.custom_apps`). -/

def find_lib_item_dynamic_st (apps : List CustomApp) (pkg_name : String)
    (possible_apps : List CustomApp) : Option CustomApp × List CustomApp :=
  (find_lib_item_dynamic apps pkg_name possible_apps, apps)

def find_lib_item_match_st (ctx : MatchCtx) : MatchResult × List CustomApp :=
  (find_lib_item_match ctx, ctx.custom_apps)

/-! ## `_pkg_metadata_find_return` (src/helpers/utils.py:387-463)

A `PackageInfo` manifest as `_parse_pkg_xml_id_name` sees it: the
`identifier` / `version` XML attributes (absent attributes are `none`)
plus the byte size of its parent directory, used as the sort key. -/

structure PkgManifest where
  ident : Option String
  version : Option String
  parentDirSize : Nat
deriving Repr, DecidableEq

/-- A `Distribution` file: the attributes of its `<product>` element,
or `none` when the element is missing (`_parse_pkg_xml_id_name` then
returns `(None, None)`). -/
structure DistroFile where
  product : Option (Option String × Option String)
deriving Repr, DecidableEq

def parseDistro (d : DistroFile) : Option String × Option String :=
  match d.product with
  | none => (none, none)
  | some iv => iv

/-- Python truthiness of an XML attribute value. -/
def strTruthy : Option String → Bool
  | none => false
  | some s => s ≠ ""

inductive PkgFindError where
  /-- "No PackageInfo file found in PKG!" -/
  | noPackageInfo : PkgFindError
  /-- "One of PKG ID/PKG version missing from PackageInfo!" -/
  | incompleteIdentity : PkgFindError
deriving Repr, DecidableEq

/-- `sorted(.glob("**/PackageInfo"), key=dir_size, reverse=True)`:
stable, largest parent directory first. -/
def sortBySize (infos : List PkgManifest) : List PkgManifest :=
  infos.insertionSort (fun x y => y.parentDirSize ≤ x.parentDirSize)

/-- `pkg_id in self.package_map.keys() and pkg_vers`. -/
def mapMatch (package_map : List String) (info : PkgManifest) : Bool :=
  (match info.ident with
   | some i => package_map.contains i
   | none => false) && strTruthy info.version

/-- `pkg_vers == distro_vers and pkg_id`. -/
def distroMatch (distro_vers : String) (info : PkgManifest) : Bool :=
  (info.version == some distro_vers) && strTruthy info.ident

/-- The common tail: read the chosen PackageInfo and require both
fields truthy, else "One of PKG ID/PKG version missing". -/
def finishLikely (likely : PkgManifest) :
    Except PkgFindError (Option String × Option String) :=
  if strTruthy likely.ident && strTruthy likely.version then
    .ok (likely.ident, likely.version)
  else .error .incompleteIdentity

/-- Core of `_pkg_metadata_find_return` after the globs: `package_map`
is the configured identifier mapping's key set (`[]` when the map is
unset or empty, both falsy in Python), `distro_files` the located
Distribution files, `infos` the PackageInfo files already sorted by
parent-directory size. -/
def pkg_find_core (package_map : List String) (distro_files : List DistroFile)
    (infos : List PkgManifest) : Except PkgFindError (Option String × Option String) :=
  if infos.length = 0 then .error .noPackageInfo
  else if infos.length = 1 then finishLikely (infos.headD ⟨none, none, 0⟩)
  else
    match (if package_map = [] then none else infos.find? (mapMatch package_map)) with
    | some info => .ok (info.ident, info.version)
    | none =>
      match distro_files.head? with
      | none => finishLikely (infos.headD ⟨none, none, 0⟩)
      | some d =>
        match (parseDistro d).2 with
        | none => finishLikely (infos.headD ⟨none, none, 0⟩)
        | some dv =>
          match infos.find? (distroMatch dv) with
          | some info => .ok (info.ident, info.version)
          | none => finishLikely (infos.headD ⟨none, none, 0⟩)

def pkg_metadata_find_return (package_map : List String)
    (distro_files : List DistroFile) (package_infos : List PkgManifest) :
    Except PkgFindError (Option String × Option String) :=
  pkg_find_core package_map distro_files (sortBySize package_infos)

/-! ## `_dmg_attach` (src/helpers/utils.py:288-303)

The external `hdiutil` invocations are oracles indexed by the recursion
round: `attachOk n` is the outcome of the attach tried in round `n`,
`detachOk n` the outcome of the detach of the stale mount found after
that attach failed.  The Python function recurses with no depth bound;
`fuel` caps the modelled depth and `none` means the recursion has not
terminated within it.  The result carries the number of attach
attempts actually made. -/

def dmg_attach (attachOk detachOk : Nat → Bool) : Nat → Nat → Option (Bool × Nat)
  | 0, _ => none
  | fuel + 1, round =>
    if attachOk round then some (true, 1)
    else if detachOk round then
      (dmg_attach attachOk detachOk fuel (round + 1)).map (fun rn => (rn.1, rn.2 + 1))
    else some (false, 1)

lemma dmg_attach_succ (attachOk detachOk : Nat → Bool) (fuel round : Nat) :
    dmg_attach attachOk detachOk (fuel + 1) round =
      if attachOk round then some (true, 1)
      else if detachOk round then
        (dmg_attach attachOk detachOk fuel (round + 1)).map (fun rn => (rn.1, rn.2 + 1))
      else some (false, 1) := rfl

/-! ## Concrete catalog records and manifests used by the witnesses -/

/-- Catalog entry whose sanitized version parses as `1.0` (the top
version), uploaded in 2024. -/
def exApp1 : CustomApp :=
  ⟨"id1", "App", "prefix/App-1.0_aaaaaaaa.pkg",
    "2024-01-01T00:00:00.000000Z", "2024-01-02T00:00:00.000000Z",
    "2024-01-01T00:00:00.000000Z", false, none⟩

/-- Catalog entry whose sanitized version parses as `0.1.0` (strictly
below the top), uploaded a year earlier. -/
def exApp2 : CustomApp :=
  ⟨"id2", "App", "prefix/App-0.1.0_bbbbbbbb.pkg",
    "2023-01-01T00:00:00.000000Z", "2023-01-02T00:00:00.000000Z",
    "2023-01-01T00:00:00.000000Z", false, none⟩

def exFoo : CustomApp :=
  ⟨"idF", "Foo", "Foo-1.0_aaaaaaaa.pkg",
    "2024-01-01T00:00:00.000000Z", "2024-01-01T00:00:00.000000Z",
    "2024-01-01T00:00:00.000000Z", false, none⟩

/-- A hinted record whose stored filename contains none of the
candidates. -/
def exBar : CustomApp :=
  ⟨"idB", "Bar", "Bar-2.0_bbbbbbbb.pkg",
    "2024-01-01T00:00:00.000000Z", "2024-01-01T00:00:00.000000Z",
    "2024-01-01T00:00:00.000000Z", false, none⟩

/-- Catalog entry whose filename scores exactly `17/20` against
`exTgt85`: 13 matching `A`s plus the matching `.pkg` out of 20+20
characters gives `2*17/40`. -/
def exApp85 : CustomApp :=
  ⟨"id85", "Sim", "AAAAAAAAAAAAAbbb.pkg",
    "2024-01-01T00:00:00.000000Z", "2024-01-01T00:00:00.000000Z",
    "2024-01-01T00:00:00.000000Z", false, none⟩

def exTgt85 : String := "AAAAAAAAAAAAAccc.pkg"

/-- Manifest matched by the Distribution product version `9.9` (largest
directory). -/
def exMan1 : PkgManifest := ⟨some "com.a.big", some "9.9", 100⟩

/-- Manifest whose identifier is the mapped key. -/
def exMan2 : PkgManifest := ⟨some "com.b.mapped", some "2.0", 50⟩

def exMan3 : PkgManifest := ⟨some "com.c", some "1.0", 10⟩

/-- Distribution file declaring product version `9.9`. -/
def exDistro : DistroFile := ⟨some (some "prod", some "9.9")⟩

/-! ## Helper lemmas -/

lemma strTruthy_isSome {o : Option String} (h : strTruthy o = true) : o.isSome = true := by
  cases o <;> simp [strTruthy] at h ⊢

lemma mapMatch_fields {pm : List String} {info : PkgManifest}
    (h : mapMatch pm info = true) : info.ident.isSome = true ∧ info.version.isSome = true := by
  rcases info with ⟨i, v, sz⟩
  cases i <;> simp_all [mapMatch, strTruthy_isSome]

lemma distroMatch_fields {dv : String} {info : PkgManifest}
    (h : distroMatch dv info = true) : info.ident.isSome = true ∧ info.version.isSome = true := by
  rcases info with ⟨i, v, sz⟩
  cases v <;> simp_all [distroMatch, strTruthy_isSome]

lemma finishLikely_ok {m : PkgManifest} {i v : Option String}
    (h : finishLikely m = .ok (i, v)) : i.isSome = true ∧ v.isSome = true := by
  unfold finishLikely at h
  split at h
  · next hc =>
    obtain ⟨h1, h2⟩ := Bool.and_eq_true_iff.mp hc
    cases h
    exact ⟨strTruthy_isSome h1, strTruthy_isSome h2⟩
  · cases h

/-! ## Claim C6 -/

/-- C6: with a configured identifier mapping and more than one package
manifest, `_pkg_metadata_find_return` returns the identifier and
version of the first manifest in scan order (parent-directory size
descending) whose identifier is a mapped key and which carries a
version — regardless of the Distribution files, so this choice
overrides any Distribution-declared-version match. -/
theorem claim_C6_manifest_map_priority (pm : List String) (df : List DistroFile)
    (raw : List PkgManifest) (info : PkgManifest)
    (hm : pm ≠ []) (hlen : 1 < (sortBySize raw).length)
    (hfind : (sortBySize raw).find? (mapMatch pm) = some info) :
    pkg_metadata_find_return pm df raw = .ok (info.ident, info.version) := by
  unfold pkg_metadata_find_return pkg_find_core
  rw [if_neg (by omega), if_neg (by omega), if_neg hm, hfind]

/-- C6 witness: three manifests; the mapping matches the middle-sized
one while the Distribution version `9.9` would have matched the
largest. -/
theorem claim_C6_manifest_map_priority_witness :
    pkg_metadata_find_return ["com.b.mapped"] [exDistro] [exMan3, exMan1, exMan2] =
      .ok (some "com.b.mapped", some "2.0") ∧
    (sortBySize [exMan3, exMan1, exMan2]).find? (distroMatch "9.9") = some exMan1 :=
  ⟨claim_C6_manifest_map_priority ["com.b.mapped"] [exDistro] [exMan3, exMan1, exMan2]
      exMan2 (by decide) (by decide) (by rfl),
    by rfl⟩

/-! ## Claim C7 -/

/-- C7: `_pkg_metadata_find_return` yields an (identifier, version)
pair only when both fields are present in the chosen manifest, and a
chosen manifest lacking either raises the incomplete-identity failure
instead of returning a partial identity. -/
theorem claim_C7_incomplete_identity :
    (∀ (pm : List String) (df : List DistroFile) (raw : List PkgManifest)
        (i v : Option String),
        pkg_metadata_find_return pm df raw = .ok (i, v) →
        i.isSome = true ∧ v.isSome = true) ∧
    (∀ m : PkgManifest, m.ident = none ∨ m.version = none →
        pkg_metadata_find_return [] [] [m] = .error .incompleteIdentity) := by
  constructor
  · intro pm df raw i v h
    unfold pkg_metadata_find_return pkg_find_core at h
    split at h
    · cases h
    split at h
    · exact finishLikely_ok h
    split at h
    · next info heq =>
      split at heq
      · cases heq
      · cases h
        exact mapMatch_fields (List.find?_some heq)
    split at h
    · exact finishLikely_ok h
    split at h
    · exact finishLikely_ok h
    split at h
    · next info heq =>
      cases h
      exact distroMatch_fields (List.find?_some heq)
    · exact finishLikely_ok h
  · intro m hm
    rcases m with ⟨i, v, sz⟩
    rcases hm with h | h <;> subst h <;>
      simp [pkg_metadata_find_return, pkg_find_core, sortBySize, List.insertionSort,
        finishLikely, strTruthy]

/-- C7 witness: a complete manifest round-trips both fields; a manifest
missing its version is rejected as incomplete. -/
theorem claim_C7_incomplete_identity_witness :
    ((some "a" : Option String).isSome = true ∧ (some "1" : Option String).isSome = true) ∧
    pkg_metadata_find_return [] [] [⟨some "x", none, 0⟩] = .error .incompleteIdentity :=
  ⟨claim_C7_incomplete_identity.1 [] [] [⟨some "a", some "1", 0⟩] (some "a") (some "1") (by rfl),
    claim_C7_incomplete_identity.2 ⟨some "x", none, 0⟩ (Or.inr rfl)⟩

/-! ## Claim C8 -/

/-- C8 counterexample: with attach outcomes fail, fail, succeed and
every detach succeeding, `_dmg_attach` attempts the attach three times
and reports success — the attach is not "attempted at most twice", nor
is failure reported when the single retry does not succeed; and when
every attach fails while every detach succeeds, the recursion never
terminates (no fuel bound suffices up to 100). -/
theorem claim_C8_attach_retry_counterexample :
    dmg_attach (fun n => decide (2 ≤ n)) (fun _ => true) 10 0 = some (true, 3) ∧
    dmg_attach (fun _ => false) (fun _ => true) 30 0 = none := by
  exact ⟨by decide, by decide⟩

/-- C8 amended: on attach failure `_dmg_attach` detaches the stale
mount and retries recursively without bound.  Whenever the recursion
terminates with `n` attach attempts, every attempt before the last
failed with a successful detach after it; the last attempt succeeded
when the result is success, and the result is failure exactly when the
last attach failed and its detach also failed (one attach attempt, no
retry).  When attaches keep failing and detaches keep succeeding the
recursion does not terminate within any bound. -/
theorem claim_C8_attach_retry_amended :
    (∀ (aOk dOk : Nat → Bool) (fuel round : Nat) (r : Bool) (n : Nat),
        dmg_attach aOk dOk fuel round = some (r, n) →
        1 ≤ n ∧
        (∀ i, i + 1 < n → aOk (round + i) = false ∧ dOk (round + i) = true) ∧
        (r = true → aOk (round + (n - 1)) = true) ∧
        (r = false → aOk (round + (n - 1)) = false ∧ dOk (round + (n - 1)) = false)) ∧
    (∀ (aOk dOk : Nat → Bool) (fuel round : Nat),
        (∀ i, aOk i = false) → (∀ i, dOk i = true) →
        dmg_attach aOk dOk fuel round = none) := by
  constructor
  · intro aOk dOk fuel
    induction fuel with
    | zero => intro round r n h; cases h
    | succ fuel ih =>
      intro round r n h
      rw [dmg_attach_succ] at h
      cases ha : aOk round with
      | true =>
        rw [ha] at h
        simp only [if_true, Option.some.injEq, Prod.mk.injEq] at h
        obtain ⟨hr, hn⟩ := h
        subst hr; subst hn
        exact ⟨le_refl 1, fun i hi => by omega, fun _ => by simpa using ha,
          fun hfls => by cases hfls⟩
      | false =>
        rw [ha] at h
        simp only [Bool.false_eq_true, if_false] at h
        cases hd : dOk round with
        | false =>
          rw [hd] at h
          simp only [Bool.false_eq_true, if_false, Option.some.injEq, Prod.mk.injEq] at h
          obtain ⟨hr, hn⟩ := h
          subst hr; subst hn
          refine ⟨le_refl 1, fun i hi => by omega, ?_, ?_⟩
          · intro htr; cases htr
          · intro _; exact ⟨ha, hd⟩
        | true =>
          rw [hd, if_pos rfl] at h
          cases hrec : dmg_attach aOk dOk fuel (round + 1) with
          | none => rw [hrec] at h; cases h
          | some rn =>
            rw [hrec] at h
            simp only [Option.map_some', Option.some.injEq, Prod.mk.injEq] at h
            obtain ⟨hr, hn⟩ := h
            obtain ⟨hn1, hmid, htrue, hfalse⟩ := ih (round + 1) rn.1 rn.2 (by
              rw [hrec])
            subst hr; subst hn
            refine ⟨by omega, ?_, ?_, ?_⟩
            · intro i hi
              match i with
              | 0 => exact ⟨ha, hd⟩
              | j + 1 =>
                have hstep := hmid j (by omega)
                have harith : round + 1 + j = round + (j + 1) := by omega
                rw [harith] at hstep
                exact hstep
            · intro hr
              have hres := htrue hr
              have harith : round + 1 + (rn.2 - 1) = round + (rn.2 + 1 - 1) := by omega
              rwa [harith] at hres
            · intro hr
              have hres := hfalse hr
              have harith : round + 1 + (rn.2 - 1) = round + (rn.2 + 1 - 1) := by omega
              rwa [harith] at hres
  · intro aOk dOk fuel
    induction fuel with
    | zero => intro round _ _; rfl
    | succ fuel ih =>
      intro round h1 h2
      rw [dmg_attach_succ, h1 round, h2 round, ih (round + 1) h1 h2]
      exact rfl

/-- C8 amended witness: the three-attempt success run satisfies the
characterization — the first two attempts fail with successful
detaches, the third succeeds. -/
theorem claim_C8_attach_retry_amended_witness :
    1 ≤ 3 ∧ (fun n => decide (2 ≤ n)) (0 + (3 - 1)) = true ∧
    (fun n => decide (2 ≤ n)) (0 + 0) = false ∧ (fun _ : Nat => true) (0 + 0) = true := by
  have h := claim_C8_attach_retry_amended.1 (fun n => decide (2 ≤ n)) (fun _ => true)
    10 0 true 3 (by decide)
  exact ⟨h.1, h.2.2.1 rfl, (h.2.1 0 (by omega)).1, (h.2.1 0 (by omega)).2⟩

/-! ## Claim C9 -/

/-- C9: a match attempt — the name search and the dynamic similarity
matcher it may invoke — leaves the catalog snapshot unchanged: the
state-threaded forms return exactly the catalog they were given, every
entry, every field, in order. -/
theorem claim_C9_catalog_frame :
    (∀ ctx : MatchCtx, (find_lib_item_match_st ctx).2 = ctx.custom_apps) ∧
    (∀ (apps : List CustomApp) (pkg_name : String) (possible_apps : List CustomApp),
        (find_lib_item_dynamic_st apps pkg_name possible_apps).2 = apps) :=
  ⟨fun _ => rfl, fun _ _ _ => rfl⟩

/-! ## Claim C10 -/

/-- C10: `_parse_enforcement` is an involution on its five recognized
values — `audit_enforce` ↔ `continuously_enforce`,
`self_service` ↔ `no_enforcement`, `install_once` fixed — applying it
twice returns the lowercased input, and every other input translates
to `False` (modelled `none`). -/
theorem claim_C10_enforcement_involution :
    (∀ s : String, strLower s ∈ recognizedEnforcements →
        (parse_enforcement s).bind parse_enforcement = some (strLower s)) ∧
    (∀ s : String, strLower s ∉ recognizedEnforcements → parse_enforcement s = none) ∧
    parse_enforcement "audit_enforce" = some "continuously_enforce" ∧
    parse_enforcement "continuously_enforce" = some "audit_enforce" ∧
    parse_enforcement "self_service" = some "no_enforcement" ∧
    parse_enforcement "no_enforcement" = some "self_service" ∧
    parse_enforcement "install_once" = some "install_once" := by
  refine ⟨?_, ?_, by decide, by decide, by decide, by decide, by decide⟩
  · intro s h
    simp only [recognizedEnforcements, List.mem_cons, List.not_mem_nil, or_false] at h
    rcases h with h | h | h | h | h <;>
      · simp only [parse_enforcement]
        rw [h]
        decide
  · intro s h
    simp only [recognizedEnforcements, List.mem_cons, List.not_mem_nil, or_false,
      not_or] at h
    obtain ⟨h1, h2, h3, h4, h5⟩ := h
    simp [parse_enforcement, h1, h2, h3, h4, h5]

/-- C10 witness: double translation of `AUDIT_ENFORCE` returns
`audit_enforce`; an unrecognized value translates to `none`. -/
theorem claim_C10_enforcement_involution_witness :
    (parse_enforcement "AUDIT_ENFORCE").bind parse_enforcement = some "audit_enforce" ∧
    parse_enforcement "install once" = none :=
  ⟨by
    have h := claim_C10_enforcement_involution.1 "AUDIT_ENFORCE" (by decide)
    simpa using h,
   claim_C10_enforcement_involution.2.1 "install once" (by decide)⟩

/-! ## Order lemmas for the timestamp tie-break -/

lemma lexLtB_irrefl : ∀ a : List Nat, lexLtB a a = false := by
  intro a
  induction a with
  | nil => rfl
  | cons x xs ih => simp [lexLtB, ih]

lemma lexLtB_trans : ∀ a b c : List Nat,
    lexLtB a b = true → lexLtB b c = true → lexLtB a c = true := by
  intro a
  induction a with
  | nil =>
    intro b c hab hbc
    cases b with
    | nil => cases hab
    | cons y ys =>
      cases c with
      | nil => cases hbc
      | cons z zs => rfl
  | cons x xs ih =>
    intro b c hab hbc
    cases b with
    | nil => cases hab
    | cons y ys =>
      cases c with
      | nil => cases hbc
      | cons z zs =>
        rw [lexLtB] at hab hbc ⊢
        split at hab
        · next hxy =>
          split at hbc
          · next hyz => rw [if_pos (by omega)]
          · split at hbc
            · cases hbc
            · next hyz hzy => rw [if_pos (by omega)]
        · split at hab
          · cases hab
          · next hxy hyx =>
            split at hbc
            · next hyz => rw [if_pos (by omega)]
            · split at hbc
              · cases hbc
              · next hyz hzy =>
                rw [if_neg (by omega), if_neg (by omega)]
                exact ih ys zs hab hbc

lemma lexLtB_negtrans : ∀ a b c : List Nat,
    lexLtB a b = false → lexLtB b c = false → lexLtB a c = false := by
  intro a
  induction a with
  | nil =>
    intro b c hab hbc
    cases b with
    | nil =>
      cases c with
      | nil => rfl
      | cons z zs => cases hbc
    | cons y ys => cases hab
  | cons x xs ih =>
    intro b c hab hbc
    cases c with
    | nil => rfl
    | cons z zs =>
      cases b with
      | nil => cases hbc
      | cons y ys =>
        rw [lexLtB] at hab hbc ⊢
        split at hab
        · cases hab
        · split at hbc
          · cases hbc
          · next hxy hyz =>
            rw [if_neg (by omega)]
            split at hab
            · next hyx =>
              rw [if_pos (by omega)]
            · split at hbc
              · next hzy =>
                split
                · rfl
                · next hyx hzx =>
                  exact absurd (by omega : z < y) (by omega)
              · next hyx hzy =>
                rw [if_neg (by omega)]
                exact ih ys zs hab hbc

lemma minFold_mem {α : Type} (key : α → List Nat) (r : α) (rs : List α) :
    minFold key r rs ∈ r :: rs := by
  induction rs generalizing r with
  | nil => exact List.mem_singleton_self r
  | cons c rest ih =>
    rw [minFold, List.foldl_cons]
    have h := ih (if lexLtB (key c) (key r) then c else r)
    rw [minFold] at h
    rcases List.mem_cons.mp h with heq | htail
    · rw [heq]
      split
      · exact List.mem_cons_of_mem r (List.mem_cons_self c rest)
      · exact List.mem_cons_self r (c :: rest)
    · exact List.mem_cons_of_mem r (List.mem_cons_of_mem c htail)

lemma minFold_min {α : Type} (key : α → List Nat) (r : α) (rs : List α) :
    ∀ x ∈ r :: rs, lexLtB (key x) (key (minFold key r rs)) = false := by
  induction rs generalizing r with
  | nil =>
    intro x hx
    rw [List.mem_singleton] at hx
    rw [hx]
    exact lexLtB_irrefl _
  | cons c rest ih =>
    intro x hx
    rw [minFold, List.foldl_cons]
    have hres : rest.foldl (fun best cur => if lexLtB (key cur) (key best) then cur else best)
        (if lexLtB (key c) (key r) then c else r) =
        minFold key (if lexLtB (key c) (key r) then c else r) rest := rfl
    rw [hres]
    rcases List.mem_cons.mp hx with rfl | hx'
    · -- x = r
      by_cases h : lexLtB (key c) (key x) = true
      · rw [if_pos h]
        have hc : lexLtB (key c) (key (minFold key c rest)) = false :=
          ih c c (List.mem_cons_self c rest)
        cases hgoal : lexLtB (key x) (key (minFold key c rest)) with
        | false => rfl
        | true =>
          have := lexLtB_trans _ _ _ h hgoal
          rw [this] at hc
          cases hc
      · rw [if_neg h]
        exact ih x x (List.mem_cons_self x rest)
    · rcases List.mem_cons.mp hx' with rfl | hrest
      · -- x = c
        by_cases h : lexLtB (key x) (key r) = true
        · rw [if_pos h]
          exact ih x x (List.mem_cons_self x rest)
        · rw [if_neg h]
          have hr : lexLtB (key r) (key (minFold key r rest)) = false :=
            ih r r (List.mem_cons_self r rest)
          exact lexLtB_negtrans _ _ _ (Bool.eq_false_iff.mpr h) hr
      · -- x ∈ rest
        by_cases h : lexLtB (key c) (key r) = true
        · rw [if_pos h]
          exact ih c x (List.mem_cons_of_mem c hrest)
        · rw [if_neg h]
          exact ih r x (List.mem_cons_of_mem r hrest)

lemma oldestApp_spec (recs : List (String × String × String)) (p : String)
    (h : oldestApp recs = some p) :
    ∃ r ∈ recs, r.1 = p ∧
      ∀ r' ∈ recs, lexLtB (dtPairKey r') (dtPairKey r) = false := by
  match recs with
  | [] => cases h
  | r0 :: rs =>
    rw [oldestApp, Option.some.injEq] at h
    exact ⟨minFold dtPairKey r0 rs, minFold_mem dtPairKey r0 rs, h,
      minFold_min dtPairKey r0 rs⟩

/-! ## Claim C4 -/

lemma dedupStrAux_all_seen (seen l : List String)
    (h : ∀ x ∈ l, x ∈ seen) : dedupStrAux seen l = [] := by
  induction l with
  | nil => rfl
  | cons s rest ih =>
    rw [dedupStrAux, if_pos (h s (List.mem_cons_self s rest))]
    exact ih (fun x hx => h x (List.mem_cons_of_mem s hx))

lemma dedupStr_const (l : List String) (n : String) (hne : l ≠ [])
    (h : ∀ x ∈ l, x = n) : dedupStr l = [n] := by
  match l with
  | [] => exact absurd rfl hne
  | s :: rest =>
    have hs : s = n := h s (List.mem_cons_self s rest)
    rw [dedupStr, dedupStrAux, if_neg (List.not_mem_nil s), hs,
      dedupStrAux_all_seen [n] rest]
    intro x hx
    rw [h x (List.mem_cons_of_mem s hx)]
    exact List.mem_singleton_self n

/-- C4 counterexample: with a hinted record (`exBar`) whose stored
filename contains no candidate, the candidate set is left unchanged by
the hint step and the matcher still selects `exFoo`, whose filename
appears in no hinted record's stored filename — the restriction the
claim asserts does not happen. -/
theorem claim_C4_hint_restriction_counterexample :
    find_lib_item_dynamic [exFoo] "Foo-1.0.pkg" [exBar] = some exFoo ∧
    possiblePkgs [exFoo] "Foo-1.0.pkg" = ["Foo-1.0_aaaaaaaa.pkg"] ∧
    substrB "Foo-1.0_aaaaaaaa.pkg".data exBar.file_key.data = false ∧
    hintedPkgs [exBar] ["Foo-1.0_aaaaaaaa.pkg"] = ["Foo-1.0_aaaaaaaa.pkg"] := by
  refine ⟨by decide, by decide, by decide, by decide⟩

/-- C4 amended: when hint records are supplied *and at least one
candidate occurs in some hinted record's stored filename*, the
candidate set is restricted to exactly those matches (so every survivor
occurs in a hinted record); when no candidate matches any hinted
record, the candidate set passes through unchanged; and
`providedAppName` is the concatenation of the distinct hinted display
names — the single shared name whenever they agree. -/
theorem claim_C4_hint_restriction_amended :
    (∀ (hints : List CustomApp) (pkgs : List String) (p : String),
        matchingPkgs hints pkgs ≠ [] →
        hintedPkgs hints pkgs = matchingPkgs hints pkgs ∧
          (p ∈ hintedPkgs hints pkgs →
            p ∈ pkgs ∧ ∃ h ∈ hints, substrB p.data h.file_key.data = true)) ∧
    (∀ (hints : List CustomApp) (pkgs : List String),
        hints ≠ [] → matchingPkgs hints pkgs = [] → hintedPkgs hints pkgs = pkgs) ∧
    (∀ (hints : List CustomApp) (n : String), hints ≠ [] →
        (∀ h ∈ hints, h.name = n) → providedAppName hints = some n) := by
  refine ⟨?_, ?_, ?_⟩
  · intro hints pkgs p hm
    have hhints : hints ≠ [] := by
      intro he
      subst he
      exact hm rfl
    have hres : hintedPkgs hints pkgs = matchingPkgs hints pkgs := by
      rw [hintedPkgs, if_neg hhints, if_neg hm]
    refine ⟨hres, ?_⟩
    intro hp
    rw [hres] at hp
    simp only [matchingPkgs, List.mem_flatMap, List.mem_filter] at hp
    obtain ⟨hint, hhint, hmem, hsub⟩ := hp
    exact ⟨hmem, hint, hhint, hsub⟩
  · intro hints pkgs hhints hm
    rw [hintedPkgs, if_neg hhints, if_pos hm]
  · intro hints n hhints hall
    rw [providedAppName, if_neg hhints]
    have hmap : ∀ x ∈ hints.map (·.name), x = n := by
      intro x hx
      obtain ⟨a, ha, rfl⟩ := List.mem_map.mp hx
      exact hall a ha
    have hnil : hints.map (·.name) ≠ [] := by
      simpa [List.map_eq_nil_iff] using hhints
    rw [dedupStr_const _ n hnil hmap]
    congr 1

/-- C4 amended witness: a matching hint restricts the candidate set; a
non-matching hint leaves it unchanged; a single hint yields its display
name. -/
theorem claim_C4_hint_restriction_amended_witness :
    hintedPkgs [exApp1] ["App-1.0_aaaaaaaa.pkg"] =
      matchingPkgs [exApp1] ["App-1.0_aaaaaaaa.pkg"] ∧
    hintedPkgs [exBar] ["Foo-1.0_aaaaaaaa.pkg"] = ["Foo-1.0_aaaaaaaa.pkg"] ∧
    providedAppName [exBar] = some "Bar" :=
  ⟨(claim_C4_hint_restriction_amended.1 [exApp1] ["App-1.0_aaaaaaaa.pkg"] "" (by decide)).1,
    claim_C4_hint_restriction_amended.2.1 [exBar] ["Foo-1.0_aaaaaaaa.pkg"]
      (by decide) (by decide),
    claim_C4_hint_restriction_amended.2.2 [exBar] "Bar" (by decide) (by decide)⟩

/-! ## Claim C2 -/

set_option maxRecDepth 40000 in
/-- C2 counterexample: against target `App-1.0.pkg` the two candidates
sanitize to versions `1.0` (top) and `0.1.0`.  The tie-break set is
built with Python substring containment (`"1.0" in "0.1.0"` is true),
so it contains the `0.1.0` candidate although its parsed version
`[0,1,0]` is strictly below the top `[1,0]` — and the matcher then
selects that candidate's (older) entry `exApp2`, not the top-version
entry `exApp1` the claim would force. -/
theorem claim_C2_tiebreak_counterexample :
    find_lib_item_dynamic [exApp1, exApp2] "App-1.0.pkg" [] = some exApp2 ∧
    pkgsVersionsSorted (hintedPkgs [] (possiblePkgs [exApp1, exApp2] "App-1.0.pkg")) =
      [("App-1.0_aaaaaaaa.pkg", "1.0"), ("App-0.1.0_bbbbbbbb.pkg", "0.1.0")] ∧
    highestVers (pkgsVersionsSorted (hintedPkgs []
        (possiblePkgs [exApp1, exApp2] "App-1.0.pkg"))) "1.0" =
      ["App-1.0_aaaaaaaa.pkg", "App-0.1.0_bbbbbbbb.pkg"] ∧
    verLe (parseRelease "1.0") (parseRelease "0.1.0") = false ∧
    exApp2 ≠ exApp1 := by
  refine ⟨by decide, by decide, by decide, by decide, by decide⟩

/-- C2 amended: the tie-break set contains exactly the candidates whose
*sanitized version string contains the top candidate's sanitized
version string as a substring* (not those with equal parsed version);
from that set, the matcher selects a candidate whose record attains the
lexicographic minimum of (artifact upload timestamp, catalog
last-modified timestamp) — both ascending, oldest wins — over the
records found for the tied candidates. -/
theorem claim_C2_tiebreak_amended :
    (∀ (sortedPV : List (String × String)) (topVers : String) (p : String),
        p ∈ highestVers sortedPV topVers ↔
          ∃ v, (p, v) ∈ sortedPV ∧ substrB topVers.data v.data = true) ∧
    (∀ (apps : List CustomApp) (hv : List String) (p : String),
        oldestApp (pkgCustomAppUpdated apps hv) = some p →
        ∃ r ∈ pkgCustomAppUpdated apps hv, r.1 = p ∧
          ∀ r' ∈ pkgCustomAppUpdated apps hv,
            lexLtB (dtPairKey r') (dtPairKey r) = false) := by
  constructor
  · intro sortedPV topVers p
    simp only [highestVers, List.mem_map, List.mem_filter]
    constructor
    · rintro ⟨⟨q, v⟩, ⟨hmem, hsub⟩, rfl⟩
      exact ⟨v, hmem, hsub⟩
    · rintro ⟨v, hmem, hsub⟩
      exact ⟨(p, v), ⟨hmem, hsub⟩, rfl⟩
  · intro apps hv p h
    exact oldestApp_spec _ p h

/-- C2 amended witness: in the two-candidate tie of the counterexample
input, the `0.1.0` candidate is in the tie-break set via substring
containment, and the selected record attains the minimal
(upload, modified) key. -/
theorem claim_C2_tiebreak_amended_witness :
    ("App-0.1.0_bbbbbbbb.pkg" ∈ highestVers
        [("App-1.0_aaaaaaaa.pkg", "1.0"), ("App-0.1.0_bbbbbbbb.pkg", "0.1.0")] "1.0") ∧
    (∃ r ∈ pkgCustomAppUpdated [exApp1, exApp2]
        ["App-1.0_aaaaaaaa.pkg", "App-0.1.0_bbbbbbbb.pkg"],
        r.1 = "App-0.1.0_bbbbbbbb.pkg" ∧
        ∀ r' ∈ pkgCustomAppUpdated [exApp1, exApp2]
            ["App-1.0_aaaaaaaa.pkg", "App-0.1.0_bbbbbbbb.pkg"],
          lexLtB (dtPairKey r') (dtPairKey r) = false) :=
  ⟨(claim_C2_tiebreak_amended.1 _ "1.0" _).mpr ⟨"0.1.0", by decide, by decide⟩,
    claim_C2_tiebreak_amended.2 [exApp1, exApp2]
      ["App-1.0_aaaaaaaa.pkg", "App-0.1.0_bbbbbbbb.pkg"]
      "App-0.1.0_bbbbbbbb.pkg" (by decide)⟩

/-! ## Claim C3 -/

lemma dedupKeysAux_subset {α : Type} :
    ∀ (seen : List String) (l : List (String × α)) (x : String × α),
      x ∈ dedupKeysAux seen l → x ∈ l := by
  intro seen l
  induction l generalizing seen with
  | nil => intro x hx; cases hx
  | cons p rest ih =>
    intro x hx
    obtain ⟨k, v⟩ := p
    rw [dedupKeysAux] at hx
    split at hx
    · exact List.mem_cons_of_mem _ (ih seen x hx)
    · rcases List.mem_cons.mp hx with rfl | hx'
      · exact List.mem_cons_self _ _
      · exact List.mem_cons_of_mem _ (ih _ x hx')

/-- Every entry of the score dict pairs a candidate with its own
similarity score. -/
lemma simScores_val (apps : List CustomApp) (target : String) :
    ∀ q ∈ similarityScores apps target, q.2 = simScorePair target q.1 := by
  intro q hq
  have hmem := dedupKeysAux_subset [] _ q hq
  obtain ⟨p, _, rfl⟩ := List.mem_map.mp hmem
  rfl

lemma fracLe_iff (x y : Nat × Nat) (hx : 0 < x.2) (hy : 0 < y.2) :
    fracLe x y = true ↔ (x.1 : ℚ) / (x.2 : ℚ) ≤ (y.1 : ℚ) / (y.2 : ℚ) := by
  rw [fracLe, decide_eq_true_eq, div_le_div_iff₀ (by exact_mod_cast hx) (by exact_mod_cast hy)]
  constructor <;> intro h <;> exact_mod_cast h

lemma simScorePair_den_pos (target pkg : String) (htgt : target ≠ "") :
    0 < (simScorePair target pkg).2 := by
  have hdata : target.data ≠ [] := by
    intro hd
    exact htgt (String.ext hd)
  have : 0 < target.data.length := List.length_pos.mpr hdata
  simp only [simScorePair, seqRatioPair]
  omega

/-- The two sides of the threshold comparison as rationals. -/
lemma simScore_eq_pair (target pkg : String) :
    simScore target pkg =
      ((simScorePair target pkg).1 : ℚ) / ((simScorePair target pkg).2 : ℚ) := rfl

set_option maxRecDepth 40000 in
/-- C3: the similarity filter is inclusive at exactly 0.85 — a
candidate name survives into `possible_pkgs` iff it is one of the
scored candidates and its ratio is `≥ 17/20`; and the boundary is
attained: a candidate scoring exactly `17/20` is kept. -/
theorem claim_C3_threshold :
    (∀ (apps : List CustomApp) (target pkg : String), target ≠ "" →
        (pkg ∈ possiblePkgs apps target ↔
          (∃ q ∈ similarityScores apps target, q.1 = pkg) ∧
            ratioLimit ≤ simScore target pkg)) ∧
    simScore exTgt85 "AAAAAAAAAAAAAbbb.pkg" = 17 / 20 ∧
    "AAAAAAAAAAAAAbbb.pkg" ∈ possiblePkgs [exApp85] exTgt85 := by
  have hlimit : ratioLimit = ((ratioLimitPair.1 : ℚ)) / ((ratioLimitPair.2 : ℚ)) := by
    rw [ratioLimit, ratioLimitPair]
    norm_num
  refine ⟨?_, ?_, ?_⟩
  · intro apps target pkg htgt
    have hden := simScorePair_den_pos target pkg htgt
    constructor
    · intro hp
      simp only [possiblePkgs, List.mem_map] at hp
      obtain ⟨q, hq, rfl⟩ := hp
      rw [List.mem_filter] at hq
      obtain ⟨hqsort, hqlim⟩ := hq
      have hqmem : q ∈ similarityScores apps target :=
        (List.perm_insertionSort _ _).mem_iff.mp hqsort
      have hqval : q.2 = simScorePair target q.1 := simScores_val apps target q hqmem
      refine ⟨⟨q, hqmem, rfl⟩, ?_⟩
      rw [hqval] at hqlim
      have hden' := simScorePair_den_pos target q.1 htgt
      have hq' := (fracLe_iff ratioLimitPair _ (by rw [ratioLimitPair]; omega) hden').mp hqlim
      rw [hlimit, simScore_eq_pair]
      exact hq'
    · rintro ⟨⟨q, hqmem, hq1⟩, hlim⟩
      have hqval : q.2 = simScorePair target q.1 := simScores_val apps target q hqmem
      have hq : q = (pkg, simScorePair target pkg) := by
        obtain ⟨q1, q2⟩ := q
        simp only at hq1 hqval
        rw [hq1] at hqval ⊢
        rw [hqval]
      subst hq
      simp only [possiblePkgs, List.mem_map]
      refine ⟨(pkg, simScorePair target pkg), ?_, rfl⟩
      rw [List.mem_filter]
      refine ⟨(List.perm_insertionSort _ _).mem_iff.mpr hqmem, ?_⟩
      apply (fracLe_iff ratioLimitPair _ (by rw [ratioLimitPair]; omega) hden).mpr
      rw [hlimit, simScore_eq_pair] at hlim
      exact hlim
  · have hm : seqMatches (stripToken ("AAAAAAAAAAAAAbbb.pkg" : String).data)
        exTgt85.data = 17 := by decide
    have hl1 : (stripToken ("AAAAAAAAAAAAAbbb.pkg" : String).data).length = 20 := by decide
    have hl2 : exTgt85.data.length = 20 := by decide
    rw [simScore, seqRatio, hm, hl1, hl2]
    norm_num
  · decide

set_option maxRecDepth 40000 in
/-- C3 witness: the boundary instance — the candidate scoring exactly
`17/20` against `exTgt85` is among the scored candidates and survives
the filter. -/
theorem claim_C3_threshold_witness :
    exTgt85 ≠ "" ∧
    ("AAAAAAAAAAAAAbbb.pkg" ∈ possiblePkgs [exApp85] exTgt85 ↔
      (∃ q ∈ similarityScores [exApp85] exTgt85, q.1 = "AAAAAAAAAAAAAbbb.pkg") ∧
        ratioLimit ≤ simScore exTgt85 "AAAAAAAAAAAAAbbb.pkg") :=
  ⟨by decide, claim_C3_threshold.1 [exApp85] exTgt85 "AAAAAAAAAAAAAbbb.pkg" (by decide)⟩

/-! ## Claim C5 -/

lemma lookVers_has_dot {l : List Char} (h : lookVers l = true) : '.' ∈ l := by
  match l with
  | [] => cases h
  | c :: rest =>
    rw [lookVers] at h
    split at h
    · split at h
      · cases h
      · next d r2 heq =>
        rw [Bool.and_eq_true] at h
        obtain ⟨_, h2⟩ := h
        split at h2
        · next heq2 =>
          have hdot : '.' ∈ r2.dropWhile Char.isDigit := by
            rw [heq2]
            exact List.mem_cons_self _ _
          have h3 : '.' ∈ r2 := (List.dropWhile_sublist _).subset hdot
          have h4 : '.' ∈ rest.dropWhile isSpaceCharP := by
            rw [heq]
            exact List.mem_cons_of_mem d h3
          exact List.mem_cons_of_mem c ((List.dropWhile_sublist _).subset h4)
        · cases h2
    · cases h

lemma lookahead_none_of_ws {l : List Char} (h : ∀ c ∈ l, isWS c = true) :
    lookahead l = false := by
  rw [lookahead]
  cases hv : lookVers l with
  | true =>
    have := h '.' (lookVers_has_dot hv)
    cases this
  | false =>
    cases hd : lookDotDash l with
    | false => rfl
    | true =>
      match l, hd with
      | c :: rest, hd =>
        rw [lookDotDash] at hd
        have hc := h c (List.mem_cons_self c rest)
        rcases Bool.or_eq_true_iff.mp hd with h1 | h1
        · rw [decide_eq_true_eq] at h1
          rw [h1] at hc
          cases hc
        · rw [decide_eq_true_eq] at h1
          rw [h1] at hc
          cases hc

lemma tryCapture_ws {l g : List Char} (h : tryCapture l = some g) :
    ∀ c ∈ g, isWS c = true := by
  induction l generalizing g with
  | nil => cases h
  | cons c rest ih =>
    rw [tryCapture] at h
    split at h
    · next hws =>
      split at h
      · cases h
        intro x hx
        rw [List.mem_singleton] at hx
        rw [hx]
        exact hws
      · split at h
        · next g' hg' =>
          cases h
          intro x hx
          rcases List.mem_cons.mp hx with rfl | hx'
          · exact hws
          · exact ih hg' x hx'
        · cases h
    · cases h

lemma tryCapture_none_of_ws {l : List Char} (h : ∀ c ∈ l, isWS c = true) :
    tryCapture l = none := by
  induction l with
  | nil => rfl
  | cons c rest ih =>
    rw [tryCapture, if_pos (h c (List.mem_cons_self c rest)),
      lookahead_none_of_ws (fun x hx => h x (List.mem_cons_of_mem c hx)),
      ih (fun x hx => h x (List.mem_cons_of_mem c hx))]
    rfl

lemma tryHexPrefix_has_dash {l r : List Char} (h : tryHexPrefix l = some r) :
    '-' ∈ l := by
  rw [tryHexPrefix] at h
  split at h
  · split at h
    · next heq =>
      have : '-' ∈ l.drop 64 := by
        rw [heq]
        exact List.mem_cons_self _ _
      exact List.drop_subset 64 l this
    · cases h
  · cases h

lemma matchAt_none_of_ws {l : List Char} (h : ∀ c ∈ l, isWS c = true) :
    matchAt l = none := by
  rw [matchAt]
  cases hp : tryHexPrefix l with
  | none => exact tryCapture_none_of_ws h
  | some r =>
    have := h '-' (tryHexPrefix_has_dash hp)
    cases this

lemma matchAt_ws {l g : List Char} (h : matchAt l = some g) :
    ∀ c ∈ g, isWS c = true := by
  rw [matchAt] at h
  split at h
  · split at h
    · next hcap =>
      cases h
      exact tryCapture_ws hcap
    · exact tryCapture_ws h
  · exact tryCapture_ws h

lemma searchName_ws {l g : List Char} (h : searchName l = some g) :
    ∀ c ∈ g, isWS c = true := by
  induction l with
  | nil => cases h
  | cons c rest ih =>
    rw [searchName] at h
    split at h
    · next hm =>
      cases h
      exact matchAt_ws hm
    · exact ih h

lemma searchName_none_of_ws {l : List Char} (h : ∀ c ∈ l, isWS c = true) :
    searchName l = none := by
  induction l with
  | nil => rfl
  | cons c rest ih =>
    rw [searchName, matchAt_none_of_ws h,
      ih (fun x hx => h x (List.mem_cons_of_mem c hx))]

/-- C5: the Name Normalizer is idempotent — the captured group consists
only of word/whitespace characters, on which neither lookahead arm (a
dotted version preceded by spaces, or a literal `.`/`-`) can fire, so a
second search finds no match and passes the name through unchanged;
when the first search already found nothing the input is returned
as-is, and normalizing it again changes nothing. -/
theorem claim_C5_normalizer_idempotent :
    ∀ s : String, normalizeName (normalizeName s) = normalizeName s := by
  intro s
  cases h : searchName s.data with
  | none => simp [normalizeName, h]
  | some g =>
    have hg : ∀ c ∈ g, isWS c = true := searchName_ws h
    have h2 : searchName (String.mk g).data = none := searchName_none_of_ws hg
    simp [normalizeName, h, h2]

/-! ## Claim C1: the ratio of equal sequences

On two equal sequences the DP of `find_longest_match` finds the whole
sequence as the single matching block, so `ratio(s, s) = 1`.  The
lemmas below establish the row invariants of the DP: every chain length
stored after row `i` is at most `i + 1` and at most `j + 1` for its
column `j`, the diagonal entry of row `i` is exactly `i + 1`, and the
best size is bounded by the row number — so the full-length match can
only be recorded at the bottom-right corner, pinning `besti = bestj = 0`. -/

lemma innerLoop_nj (i bhi : Nat) (j2len : Nat → Nat) :
    ∀ (js : List Nat) (best : Best) (nj : Nat → Nat),
      (∀ j ∈ js, j < bhi) →
      ∀ j', (innerLoop i 0 bhi j2len js best nj).2 j' =
        if j' ∈ js then rowVal j2len j' else nj j' := by
  intro js
  induction js with
  | nil =>
    intro best nj _ j'
    simp [innerLoop]
  | cons j js ih =>
    intro best nj h j'
    rw [innerLoop, if_neg (by omega),
      if_neg (by have := h j (List.mem_cons_self j js); omega)]
    rw [ih _ _ (fun x hx => h x (List.mem_cons_of_mem j hx))]
    by_cases hj : j' ∈ js
    · rw [if_pos hj, if_pos (List.mem_cons_of_mem j hj)]
    · rw [if_neg hj]
      by_cases hj2 : j' = j
      · subst hj2
        rw [if_pos rfl, if_pos (List.mem_cons_self j' js)]
      · rw [if_neg hj2, if_neg (by
          intro hmem
          rcases List.mem_cons.mp hmem with h1 | h1
          · exact hj2 h1
          · exact hj h1)]

lemma innerLoop_best_mono (i bhi : Nat) (j2len : Nat → Nat) :
    ∀ (js : List Nat) (best : Best) (nj : Nat → Nat),
      best.bestsize ≤ (innerLoop i 0 bhi j2len js best nj).1.bestsize := by
  intro js
  induction js with
  | nil => intro best nj; exact le_refl _
  | cons j js ih =>
    intro best nj
    rw [innerLoop, if_neg (by omega)]
    by_cases h1 : bhi ≤ j
    · rw [if_pos h1]
    · rw [if_neg h1]
      refine le_trans ?_ (ih _ _)
      split
      · next hlt => exact le_of_lt hlt
      · exact le_refl _

lemma innerLoop_best_ge (i bhi : Nat) (j2len : Nat → Nat) :
    ∀ (js : List Nat) (best : Best) (nj : Nat → Nat),
      (∀ j ∈ js, j < bhi) →
      ∀ j ∈ js, rowVal j2len j ≤ (innerLoop i 0 bhi j2len js best nj).1.bestsize := by
  intro js
  induction js with
  | nil => intro best nj _ j hj; cases hj
  | cons j0 js ih =>
    intro best nj h j hj
    rw [innerLoop, if_neg (by omega),
      if_neg (by have := h j0 (List.mem_cons_self j0 js); omega)]
    rcases List.mem_cons.mp hj with rfl | hj'
    · refine le_trans ?_ (innerLoop_best_mono i bhi j2len js _ _)
      split
      · next hlt => exact le_refl _
      · next hge => omega
    · exact ih _ _ (fun x hx => h x (List.mem_cons_of_mem j0 hx)) j hj'

lemma innerLoop_best_le (i bhi : Nat) (j2len : Nat → Nat) (B : Nat) :
    ∀ (js : List Nat) (best : Best) (nj : Nat → Nat),
      (∀ j ∈ js, rowVal j2len j ≤ B) → best.bestsize ≤ B →
      (innerLoop i 0 bhi j2len js best nj).1.bestsize ≤ B := by
  intro js
  induction js with
  | nil => intro best nj _ hb; exact hb
  | cons j js ih =>
    intro best nj h hb
    rw [innerLoop, if_neg (by omega)]
    by_cases h1 : bhi ≤ j
    · rw [if_pos h1]; exact hb
    · rw [if_neg h1]
      apply ih _ _ (fun x hx => h x (List.mem_cons_of_mem j hx))
      split
      · exact h j (List.mem_cons_self j js)
      · exact hb

lemma innerLoop_best_cases (i bhi : Nat) (j2len : Nat → Nat) :
    ∀ (js : List Nat) (best : Best) (nj : Nat → Nat),
      (innerLoop i 0 bhi j2len js best nj).1 = best ∨
      ∃ j ∈ js, (innerLoop i 0 bhi j2len js best nj).1 =
          ⟨i + 1 - rowVal j2len j, j + 1 - rowVal j2len j, rowVal j2len j⟩ ∧
        best.bestsize < rowVal j2len j := by
  intro js
  induction js with
  | nil => intro best nj; exact Or.inl rfl
  | cons j js ih =>
    intro best nj
    rw [innerLoop, if_neg (by omega)]
    by_cases h1 : bhi ≤ j
    · rw [if_pos h1]; exact Or.inl rfl
    · rw [if_neg h1]
      by_cases hlt : best.bestsize < rowVal j2len j
      · rw [if_pos hlt]
        rcases ih (⟨i + 1 - rowVal j2len j, j + 1 - rowVal j2len j,
            rowVal j2len j⟩ : Best) (fun j' => if j' = j then rowVal j2len j else nj j')
          with heq | ⟨j', hj', heq, hlt'⟩
        · exact Or.inr ⟨j, List.mem_cons_self j js, heq, hlt⟩
        · refine Or.inr ⟨j', List.mem_cons_of_mem j hj', heq, ?_⟩
          simp only at hlt'
          omega
      · rw [if_neg hlt]
        rcases ih best (fun j' => if j' = j then rowVal j2len j else nj j')
          with heq | ⟨j', hj', heq, hlt'⟩
        · exact Or.inl heq
        · exact Or.inr ⟨j', List.mem_cons_of_mem j hj', heq, hlt'⟩

lemma mem_posList_lt {b : List Char} {c : Char} {j : Nat} (h : j ∈ posList b c) :
    j < b.length := by
  rw [posList, List.mem_filter] at h
  exact List.mem_range.mp h.1

lemma diag_mem_posList (l : List Char) (m : Nat) (hm : m < l.length) :
    m ∈ posList l (l.getD m 'A') := by
  rw [posList, List.mem_filter]
  refine ⟨List.mem_range.mpr hm, ?_⟩
  have hx : l.get? m = some (l.getD m 'A') := by
    rw [List.getD_eq_getElem?_getD, List.get?_eq_getElem?]
    cases hg : l[m]? with
    | none =>
      rw [List.getElem?_eq_none_iff] at hg
      omega
    | some x => rfl
  rw [hx]
  exact beq_self_eq_true _

lemma rowVal_le_of_row (j2len : Nat → Nat) (j m : Nat)
    (h : ∀ j', j2len j' ≤ m) : rowVal j2len j ≤ m + 1 := by
  rw [rowVal]
  split
  · omega
  · exact Nat.succ_le_succ (h _)

lemma rowVal_le_col (j2len : Nat → Nat) (j : Nat)
    (h : ∀ j', j2len j' ≤ j' + 1) : rowVal j2len j ≤ j + 1 := by
  rw [rowVal]
  split
  · omega
  · next hj =>
    have := h (j - 1)
    omega

lemma outerLoop_append (a b : List Char) (blo bhi : Nat) (xs ys : List Nat)
    (st : Best × (Nat → Nat)) :
    outerLoop a b blo bhi (xs ++ ys) st =
      outerLoop a b blo bhi ys (outerLoop a b blo bhi xs st) := by
  induction xs generalizing st with
  | nil => rfl
  | cons x xs ih =>
    rw [List.cons_append, outerLoop, outerLoop]
    exact ih _

/-- The row invariants of the DP for equal sequences, after the rows
`0 .. m-1`. -/
lemma outerLoop_self_inv (l : List Char) :
    ∀ m : Nat, m ≤ l.length →
      (∀ j, (outerLoop l l 0 l.length (List.range m) (⟨0, 0, 0⟩, fun _ => 0)).2 j ≤ m) ∧
      (∀ j, (outerLoop l l 0 l.length (List.range m) (⟨0, 0, 0⟩, fun _ => 0)).2 j ≤ j + 1) ∧
      (1 ≤ m → (outerLoop l l 0 l.length (List.range m) (⟨0, 0, 0⟩, fun _ => 0)).2 (m - 1) = m) ∧
      (outerLoop l l 0 l.length (List.range m) (⟨0, 0, 0⟩, fun _ => 0)).1.bestsize ≤ m := by
  intro m
  induction m with
  | zero =>
    intro _
    refine ⟨fun j => ?_, fun j => ?_, fun h => by omega, ?_⟩ <;>
      simp [List.range_zero, outerLoop]
  | succ m ih =>
    intro hm1
    obtain ⟨p1, p2, p3, p4⟩ := ih (by omega)
    rw [List.range_succ, outerLoop_append]
    set st := outerLoop l l 0 l.length (List.range m) (⟨0, 0, 0⟩, fun _ => 0) with hst
    have hstep : outerLoop l l 0 l.length [m] st =
        innerLoop m 0 l.length st.2 (posList l (l.getD m 'A')) st.1 (fun _ => 0) := by
      rw [outerLoop, outerLoop]
    rw [hstep]
    have hjs : ∀ j ∈ posList l (l.getD m 'A'), j < l.length :=
      fun j hj => mem_posList_lt hj
    have hnj := innerLoop_nj m l.length st.2 (posList l (l.getD m 'A')) st.1
      (fun _ => 0) hjs
    refine ⟨?_, ?_, ?_, ?_⟩
    · intro j
      rw [hnj j]
      split
      · exact rowVal_le_of_row st.2 j m p1
      · exact Nat.zero_le _
    · intro j
      rw [hnj j]
      split
      · exact rowVal_le_col st.2 j p2
      · exact Nat.zero_le _
    · intro _
      rw [hnj (m + 1 - 1)]
      have hmm : m + 1 - 1 = m := by omega
      rw [hmm, if_pos (diag_mem_posList l m (by omega))]
      rw [rowVal]
      split
      · next h0 => omega
      · next h0 =>
        have := p3 (by omega)
        omega
    · apply innerLoop_best_le
      · intro j _
        exact rowVal_le_of_row st.2 j m p1
      · omega

lemma extendLeft_zero (a b : List Char) (alo blo : Nat) (f : Best) :
    extendLeft a b alo blo 0 f = f := rfl

lemma extendRight_zero (a b : List Char) (ahi bhi : Nat) (f : Best) :
    extendRight a b ahi bhi 0 f = f := rfl

/-- `find_longest_match` of two equal sequences over their full ranges
returns the whole-sequence block. -/
lemma flm_self (l : List Char) (hl : l ≠ []) :
    findLongestMatch l l 0 l.length 0 l.length = ⟨0, 0, l.length⟩ := by
  obtain ⟨m, hm⟩ : ∃ m, l.length = m + 1 := by
    have : 0 < l.length := List.length_pos.mpr hl
    exact ⟨l.length - 1, by omega⟩
  obtain ⟨p1, p2, p3, p4⟩ := outerLoop_self_inv l m (by omega)
  set st := outerLoop l l 0 l.length (List.range m) (⟨0, 0, 0⟩, fun _ => 0) with hst
  set js := posList l (l.getD m 'A') with hjsdef
  have hjs : ∀ j ∈ js, j < l.length := fun j hj => mem_posList_lt hj
  have hdiag : m ∈ js := diag_mem_posList l m (by omega)
  have hdiagval : rowVal st.2 m = m + 1 := by
    rw [rowVal]
    split
    · next h0 => omega
    · next h0 =>
      have := p3 (by omega)
      omega
  have hge : m + 1 ≤ (innerLoop m 0 l.length st.2 js st.1 (fun _ => 0)).1.bestsize :=
    hdiagval ▸ innerLoop_best_ge m l.length st.2 js st.1 (fun _ => 0) hjs m hdiag
  have hle : (innerLoop m 0 l.length st.2 js st.1 (fun _ => 0)).1.bestsize ≤ m + 1 :=
    innerLoop_best_le m l.length st.2 (m + 1) js st.1 (fun _ => 0)
      (fun j _ => rowVal_le_of_row st.2 j m p1) (by omega)
  have hsize : (innerLoop m 0 l.length st.2 js st.1 (fun _ => 0)).1.bestsize = m + 1 :=
    le_antisymm hle hge
  have hbest : (innerLoop m 0 l.length st.2 js st.1 (fun _ => 0)).1 = ⟨0, 0, m + 1⟩ := by
    rcases innerLoop_best_cases m l.length st.2 js st.1 (fun _ => 0)
      with heq | ⟨j, hj, heq, hlt⟩
    · rw [heq] at hsize
      omega
    · have hk : rowVal st.2 j = m + 1 := by
        rw [heq] at hsize
        exact hsize
      have hjle : rowVal st.2 j ≤ j + 1 := rowVal_le_col st.2 j p2
      have hjlt : j < l.length := hjs j hj
      have hjm : j = m := by omega
      subst hjm
      rw [heq, hk]
      congr 1 <;> omega
  have houter :
      (outerLoop l l 0 l.length (List.range l.length) (⟨0, 0, 0⟩, fun _ => 0)).1 =
        ⟨0, 0, m + 1⟩ := by
    have hsplit : List.range l.length = List.range m ++ [m] := by
      rw [hm, List.range_succ]
    rw [hsplit, outerLoop_append, ← hst]
    have hstep : outerLoop l l 0 l.length [m] st =
        innerLoop m 0 l.length st.2 js st.1 (fun _ => 0) := by
      rw [outerLoop, outerLoop, hjsdef]
    rw [hstep, hbest]
  rw [findLongestMatch]
  simp only [Nat.sub_zero, ← List.range_eq_range']
  rw [houter, extendLeft_zero]
  have hfuel : l.length - (0 + (m + 1)) = 0 := by omega
  rw [hfuel, extendRight_zero, hm]

/-- `find_longest_match` over a pair of empty ranges finds nothing. -/
lemma flm_point (a b : List Char) (x y : Nat) :
    findLongestMatch a b x x y y = ⟨x, y, 0⟩ := by
  rw [findLongestMatch]
  simp only [Nat.sub_self, List.range'_zero]
  rw [outerLoop]
  have hleft : extendLeft a b x y x ⟨x, y, 0⟩ = ⟨x, y, 0⟩ := by
    cases x with
    | zero => rfl
    | succ x' =>
      rw [extendLeft, if_neg (by simp)]
  rw [hleft]
  have hfuel : x - (x + 0) = 0 := by omega
  rw [hfuel, extendRight_zero]

lemma matchedTotal_point (a b : List Char) (fuel x y : Nat) :
    matchedTotal a b fuel x x y y = 0 := by
  cases fuel with
  | zero => rfl
  | succ fuel =>
    rw [matchedTotal, flm_point]
    rfl

/-- The total matched size of two equal sequences is the whole length. -/
lemma seqMatches_self (l : List Char) (hl : l ≠ []) : seqMatches l l = l.length := by
  rw [seqMatches, matchedTotal, flm_self l hl]
  have hne : ¬(Best.mk 0 0 l.length).bestsize = 0 := by
    have : 0 < l.length := List.length_pos.mpr hl
    simp only []
    omega
  rw [if_neg hne]
  simp only []
  rw [Nat.zero_add, matchedTotal_point, matchedTotal_point]
  omega

/-- `ratio(s, s) = 1` for nonempty `s`. -/
lemma seqRatio_self (l : List Char) (hl : l ≠ []) : seqRatio l l = 1 := by
  rw [seqRatio, seqMatches_self l hl]
  have hn : 0 < l.length := List.length_pos.mpr hl
  have hden : ((l.length + l.length : Nat) : ℚ) ≠ 0 := by
    push_cast
    have : (0 : ℚ) < (l.length : ℚ) := by exact_mod_cast hn
    nlinarith
  rw [div_eq_one_iff_eq hden]
  push_cast
  ring

/-! ### Semantic correctness of `find_longest_match`

For the converse direction of C1 (`ratio = 1` only for equal inputs)
we prove that the block returned by `findLongestMatch` is a genuine
common substring inside the requested ranges.  The DP invariant: a
nonzero entry `j2len j` after processing row `i` is the length of a
chain of equal characters ending at `a[i]`/`b[j]` that stays inside
`[alo, i]`/`[blo, j]`. -/

/-- `k` characters of `a` starting at `i` equal those of `b` starting
at `j`. -/
def sliceEq (a b : List Char) (i j k : Nat) : Prop :=
  ∀ t, t < k → a.get? (i + t) = b.get? (j + t)

/-- The block `f` lies inside the ranges and matches character by
character. -/
def validBlock (a b : List Char) (alo ahi blo bhi : Nat) (f : Best) : Prop :=
  alo ≤ f.besti ∧ f.besti + f.bestsize ≤ ahi ∧
  blo ≤ f.bestj ∧ f.bestj + f.bestsize ≤ bhi ∧
  sliceEq a b f.besti f.bestj f.bestsize

/-- Every nonzero row entry records a genuine chain of matches ending
at row `i`. -/
def chainOK (a b : List Char) (alo blo i : Nat) (j2len : Nat → Nat) : Prop :=
  ∀ j, j2len j ≠ 0 →
    blo ≤ j ∧ j2len j ≤ j + 1 - blo ∧ j2len j ≤ i + 1 - alo ∧
    ∀ t, t < j2len j → a.get? (i - t) = b.get? (j - t)

lemma get?_eq_getD {l : List Char} {n : Nat} (d : Char) (h : n < l.length) :
    l.get? n = some (l.getD n d) := by
  rw [List.getD_eq_getElem?_getD, List.get?_eq_getElem?]
  cases hg : l[n]? with
  | none =>
    rw [List.getElem?_eq_none_iff] at hg
    omega
  | some x => rfl

lemma mem_posList_get {b : List Char} {c : Char} {j : Nat} (h : j ∈ posList b c) :
    b.get? j = some c := by
  rw [posList, List.mem_filter] at h
  exact eq_of_beq h.2

/-- The value the DP writes at `(i, j)` extends a valid chain from
`(i-1, j-1)` by the match `a[i] = b[j]`. -/
lemma rowVal_chain (a b : List Char) (c : Char) (alo blo i j : Nat) (j2len : Nat → Nat)
    (hA : a.get? i = some c) (hB : b.get? j = some c)
    (hi : alo ≤ i) (hjb : blo ≤ j)
    (hz : i = 0 → ∀ j', j2len j' = 0)
    (hprev : chainOK a b alo blo (i - 1) j2len) :
    rowVal j2len j ≤ j + 1 - blo ∧ rowVal j2len j ≤ i + 1 - alo ∧
    ∀ t, t < rowVal j2len j → a.get? (i - t) = b.get? (j - t) := by
  rw [rowVal]
  have hone : ∀ t, t < 1 → a.get? (i - t) = b.get? (j - t) := by
    intro t ht
    have ht0 : t = 0 := by omega
    subst ht0
    rw [Nat.sub_zero, Nat.sub_zero, hA, hB]
  by_cases hj0 : j = 0
  · rw [if_pos hj0]
    subst hj0
    exact ⟨by omega, by omega, hone⟩
  · rw [if_neg hj0]
    by_cases hw : j2len (j - 1) = 0
    · rw [hw]
      exact ⟨by omega, by omega, hone⟩
    · have hi1 : 1 ≤ i := by
        by_contra hcon
        have : i = 0 := by omega
        exact hw (hz this (j - 1))
      obtain ⟨c1, c2, c3, c4⟩ := hprev (j - 1) hw
      refine ⟨by omega, by omega, ?_⟩
      intro t ht
      match t with
      | 0 => exact hone 0 (by omega)
      | s + 1 =>
        have h1 : i - (s + 1) = (i - 1) - s := by omega
        have h2 : j - (s + 1) = (j - 1) - s := by omega
        rw [h1, h2]
        exact c4 s (by omega)

/-- Processing one row preserves the chain invariant for the freshly
built row. -/
lemma innerLoop_chainOK (a b : List Char) (c : Char) (alo blo bhi i : Nat)
    (j2len : Nat → Nat)
    (hA : a.get? i = some c) (hi : alo ≤ i)
    (hz : i = 0 → ∀ j', j2len j' = 0)
    (hprev : chainOK a b alo blo (i - 1) j2len) :
    ∀ (js : List Nat) (best : Best) (nj : Nat → Nat),
      (∀ j ∈ js, j ∈ posList b c) →
      chainOK a b alo blo i nj →
      chainOK a b alo blo i (innerLoop i blo bhi j2len js best nj).2 := by
  intro js
  induction js with
  | nil => intro best nj _ hnj; exact hnj
  | cons j js ih =>
    intro best nj hjs hnj
    rw [innerLoop]
    by_cases h0 : j < blo
    · rw [if_pos h0]
      exact ih _ _ (fun x hx => hjs x (List.mem_cons_of_mem j hx)) hnj
    · rw [if_neg h0]
      by_cases h1 : bhi ≤ j
      · rw [if_pos h1]
        exact hnj
      · rw [if_neg h1]
        apply ih _ _ (fun x hx => hjs x (List.mem_cons_of_mem j hx))
        intro j' hne
        simp only at hne ⊢
        by_cases hj' : j' = j
        · subst hj'
          rw [if_pos rfl] at hne ⊢
          have hB : b.get? j' = some c :=
            mem_posList_get (hjs j' (List.mem_cons_self j' js))
          obtain ⟨c1, c2, c3⟩ :=
            rowVal_chain a b c alo blo i j' j2len hA hB hi (by omega) hz hprev
          exact ⟨by omega, c1, c2, c3⟩
        · rw [if_neg hj'] at hne ⊢
          exact hnj j' hne

/-- Processing one row preserves block validity of the running best. -/
lemma innerLoop_best_valid (a b : List Char) (c : Char) (alo ahi blo bhi i : Nat)
    (j2len : Nat → Nat)
    (hA : a.get? i = some c) (hi : alo ≤ i) (hiahi : i < ahi)
    (hz : i = 0 → ∀ j', j2len j' = 0)
    (hprev : chainOK a b alo blo (i - 1) j2len) :
    ∀ (js : List Nat) (best : Best) (nj : Nat → Nat),
      (∀ j ∈ js, j ∈ posList b c) →
      validBlock a b alo ahi blo bhi best →
      validBlock a b alo ahi blo bhi (innerLoop i blo bhi j2len js best nj).1 := by
  intro js
  induction js with
  | nil => intro best nj _ hb; exact hb
  | cons j js ih =>
    intro best nj hjs hb
    rw [innerLoop]
    by_cases h0 : j < blo
    · rw [if_pos h0]
      exact ih _ _ (fun x hx => hjs x (List.mem_cons_of_mem j hx)) hb
    · rw [if_neg h0]
      by_cases h1 : bhi ≤ j
      · rw [if_pos h1]
        exact hb
      · rw [if_neg h1]
        apply ih _ _ (fun x hx => hjs x (List.mem_cons_of_mem j hx))
        split
        · have hB : b.get? j = some c :=
            mem_posList_get (hjs j (List.mem_cons_self j js))
          obtain ⟨c1, c2, c3⟩ :=
            rowVal_chain a b c alo blo i j j2len hA hB hi (by omega) hz hprev
          have hk1 : 1 ≤ rowVal j2len j := by
            rw [rowVal]
            omega
          show alo ≤ i + 1 - rowVal j2len j ∧
            i + 1 - rowVal j2len j + rowVal j2len j ≤ ahi ∧
            blo ≤ j + 1 - rowVal j2len j ∧
            j + 1 - rowVal j2len j + rowVal j2len j ≤ bhi ∧
            sliceEq a b (i + 1 - rowVal j2len j) (j + 1 - rowVal j2len j) (rowVal j2len j)
          refine ⟨by omega, by omega, by omega, by omega, ?_⟩
          intro t ht
          have e1 : i + 1 - rowVal j2len j + t = i - (rowVal j2len j - 1 - t) := by
            omega
          have e2 : j + 1 - rowVal j2len j + t = j - (rowVal j2len j - 1 - t) := by
            omega
          rw [e1, e2]
          exact c3 (rowVal j2len j - 1 - t) (by omega)
        · exact hb

/-- The left extension pass only grows a block along genuine matches. -/
lemma extendLeft_valid (a b : List Char) (alo ahi blo bhi : Nat)
    (ha : ahi ≤ a.length) (hb : bhi ≤ b.length) :
    ∀ (fuel : Nat) (f : Best), validBlock a b alo ahi blo bhi f →
      validBlock a b alo ahi blo bhi (extendLeft a b alo blo fuel f) := by
  intro fuel
  induction fuel with
  | zero => intro f hf; exact hf
  | succ fuel ih =>
    intro f hf
    rw [extendLeft]
    split
    · next hcond =>
      obtain ⟨hc1, hc23⟩ := Bool.and_eq_true_iff.mp hcond
      obtain ⟨hc1a, hc1b⟩ := Bool.and_eq_true_iff.mp hc1
      rw [decide_eq_true_eq] at hc1a hc1b
      obtain ⟨hv1, hv2, hv3, hv4, hv5⟩ := hf
      apply ih
      have hia : f.besti - 1 < a.length := by omega
      have hjb : f.bestj - 1 < b.length := by omega
      have hgeta := get?_eq_getD (l := a) (n := f.besti - 1) 'A' hia
      have hgetb := get?_eq_getD (l := b) (n := f.bestj - 1) 'A' hjb
      show alo ≤ f.besti - 1 ∧ f.besti - 1 + (f.bestsize + 1) ≤ ahi ∧
        blo ≤ f.bestj - 1 ∧ f.bestj - 1 + (f.bestsize + 1) ≤ bhi ∧
        sliceEq a b (f.besti - 1) (f.bestj - 1) (f.bestsize + 1)
      refine ⟨by omega, by omega, by omega, by omega, ?_⟩
      intro t ht
      match t with
      | 0 =>
        rw [Nat.add_zero, Nat.add_zero, hgeta, hgetb, eq_of_beq hc23]
      | s + 1 =>
        have e1 : f.besti - 1 + (s + 1) = f.besti + s := by omega
        have e2 : f.bestj - 1 + (s + 1) = f.bestj + s := by omega
        rw [e1, e2]
        exact hv5 s (by omega)
    · exact hf

/-- The right extension pass only grows a block along genuine matches. -/
lemma extendRight_valid (a b : List Char) (alo ahi blo bhi : Nat)
    (ha : ahi ≤ a.length) (hb : bhi ≤ b.length) :
    ∀ (fuel : Nat) (f : Best), validBlock a b alo ahi blo bhi f →
      validBlock a b alo ahi blo bhi (extendRight a b ahi bhi fuel f) := by
  intro fuel
  induction fuel with
  | zero => intro f hf; exact hf
  | succ fuel ih =>
    intro f hf
    rw [extendRight]
    split
    · next hcond =>
      obtain ⟨hc1, hc23⟩ := Bool.and_eq_true_iff.mp hcond
      obtain ⟨hc1a, hc1b⟩ := Bool.and_eq_true_iff.mp hc1
      rw [decide_eq_true_eq] at hc1a hc1b
      obtain ⟨hv1, hv2, hv3, hv4, hv5⟩ := hf
      apply ih
      have hia : f.besti + f.bestsize < a.length := by omega
      have hjb : f.bestj + f.bestsize < b.length := by omega
      have hgeta := get?_eq_getD (l := a) (n := f.besti + f.bestsize) 'A' hia
      have hgetb := get?_eq_getD (l := b) (n := f.bestj + f.bestsize) 'A' hjb
      show alo ≤ f.besti ∧ f.besti + (f.bestsize + 1) ≤ ahi ∧
        blo ≤ f.bestj ∧ f.bestj + (f.bestsize + 1) ≤ bhi ∧
        sliceEq a b f.besti f.bestj (f.bestsize + 1)
      refine ⟨by omega, by omega, by omega, by omega, ?_⟩
      intro t ht
      by_cases hts : t < f.bestsize
      · exact hv5 t hts
      · have hteq : t = f.bestsize := by omega
        subst hteq
        rw [hgeta, hgetb, eq_of_beq hc23]
    · exact hf

/-- The outer DP loop keeps the running best a valid block. -/
lemma outerLoop_valid (a b : List Char) (alo blo bhi ahi : Nat)
    (ha : ahi ≤ a.length) :
    ∀ (n i : Nat) (st : Best × (Nat → Nat)),
      alo ≤ i → i + n ≤ ahi →
      (i = 0 → ∀ j, st.2 j = 0) →
      chainOK a b alo blo (i - 1) st.2 →
      validBlock a b alo ahi blo bhi st.1 →
      validBlock a b alo ahi blo bhi
        (outerLoop a b blo bhi (List.range' i n) st).1 := by
  intro n
  induction n with
  | zero => intro i st _ _ _ _ hv; exact hv
  | succ n ih =>
    intro i st hi hn hz hchain hv
    rw [List.range'_succ, outerLoop]
    have hia : i < a.length := by omega
    have hA : a.get? i = some (a.getD i 'A') := get?_eq_getD 'A' hia
    apply ih (i + 1)
    · omega
    · omega
    · omega
    · exact innerLoop_chainOK a b (a.getD i 'A') alo blo bhi i st.2 hA hi hz hchain
        (posList b (a.getD i 'A')) st.1 (fun _ => 0) (fun j hj => hj)
        (fun j hj => absurd rfl hj)
    · exact innerLoop_best_valid a b (a.getD i 'A') alo ahi blo bhi i st.2 hA hi
        (by omega) hz hchain (posList b (a.getD i 'A')) st.1 (fun _ => 0)
        (fun j hj => hj) hv

/-- The block returned by `find_longest_match` is a genuine common
substring inside the requested ranges. -/
lemma flm_valid (a b : List Char) (alo ahi blo bhi : Nat)
    (ha : ahi ≤ a.length) (hb : bhi ≤ b.length)
    (h1 : alo ≤ ahi) (h2 : blo ≤ bhi) :
    validBlock a b alo ahi blo bhi (findLongestMatch a b alo ahi blo bhi) := by
  rw [findLongestMatch]
  apply extendRight_valid a b alo ahi blo bhi ha hb
  apply extendLeft_valid a b alo ahi blo bhi ha hb
  apply outerLoop_valid a b alo blo bhi ahi ha (ahi - alo) alo
  · exact le_refl alo
  · omega
  · intro _ j
    rfl
  · intro j hj
    exact absurd rfl hj
  · show alo ≤ alo ∧ alo + 0 ≤ ahi ∧ blo ≤ blo ∧ blo + 0 ≤ bhi ∧ sliceEq a b alo blo 0
    exact ⟨le_refl alo, by omega, le_refl blo, by omega, fun t ht => by omega⟩

/-- The matched total never exceeds either range: the blocks occupy
disjoint, ordered segments of each side. -/
lemma matchedTotal_le (a b : List Char) :
    ∀ (fuel alo ahi blo bhi : Nat), alo ≤ ahi → blo ≤ bhi →
      ahi ≤ a.length → bhi ≤ b.length →
      matchedTotal a b fuel alo ahi blo bhi ≤ ahi - alo ∧
      matchedTotal a b fuel alo ahi blo bhi ≤ bhi - blo := by
  intro fuel
  induction fuel with
  | zero =>
    intro alo ahi blo bhi _ _ _ _
    exact ⟨Nat.zero_le _, Nat.zero_le _⟩
  | succ fuel ih =>
    intro alo ahi blo bhi h1 h2 h3 h4
    have hval := flm_valid a b alo ahi blo bhi h3 h4 h1 h2
    rw [matchedTotal]
    set f := findLongestMatch a b alo ahi blo bhi with hf
    obtain ⟨hv1, hv2, hv3, hv4, _⟩ := hval
    by_cases h0 : f.bestsize = 0
    · rw [if_pos h0]
      exact ⟨Nat.zero_le _, Nat.zero_le _⟩
    · rw [if_neg h0]
      have hL := ih alo f.besti blo f.bestj hv1 hv3 (by omega) (by omega)
      have hR := ih (f.besti + f.bestsize) ahi (f.bestj + f.bestsize) bhi hv2 hv4 h3 h4
      exact ⟨by omega, by omega⟩

/-- When the matched total covers both ranges entirely, the two slices
are equal character by character. -/
lemma matchedTotal_full (a b : List Char) :
    ∀ (fuel alo ahi blo bhi : Nat), alo ≤ ahi → blo ≤ bhi →
      ahi ≤ a.length → bhi ≤ b.length →
      matchedTotal a b fuel alo ahi blo bhi = ahi - alo →
      matchedTotal a b fuel alo ahi blo bhi = bhi - blo →
      ∀ t, t < ahi - alo → a.get? (alo + t) = b.get? (blo + t) := by
  intro fuel
  induction fuel with
  | zero =>
    intro alo ahi blo bhi _ _ _ _ hMa _ t ht
    rw [matchedTotal] at hMa
    omega
  | succ fuel ih =>
    intro alo ahi blo bhi h1 h2 h3 h4 hMa hMb t ht
    have hval := flm_valid a b alo ahi blo bhi h3 h4 h1 h2
    rw [matchedTotal] at hMa hMb
    set f := findLongestMatch a b alo ahi blo bhi with hf
    obtain ⟨hv1, hv2, hv3, hv4, hv5⟩ := hval
    by_cases h0 : f.bestsize = 0
    · rw [if_pos h0] at hMa
      omega
    · rw [if_neg h0] at hMa hMb
      have hLle := matchedTotal_le a b fuel alo f.besti blo f.bestj hv1 hv3
        (by omega) (by omega)
      have hRle := matchedTotal_le a b fuel (f.besti + f.bestsize) ahi
        (f.bestj + f.bestsize) bhi hv2 hv4 h3 h4
      have hLa : matchedTotal a b fuel alo f.besti blo f.bestj = f.besti - alo := by
        omega
      have hLb : matchedTotal a b fuel alo f.besti blo f.bestj = f.bestj - blo := by
        omega
      have hRa : matchedTotal a b fuel (f.besti + f.bestsize) ahi
          (f.bestj + f.bestsize) bhi = ahi - (f.besti + f.bestsize) := by
        omega
      have hRb : matchedTotal a b fuel (f.besti + f.bestsize) ahi
          (f.bestj + f.bestsize) bhi = bhi - (f.bestj + f.bestsize) := by
        omega
      have hoff : f.besti - alo = f.bestj - blo := by omega
      have hLfull := ih alo f.besti blo f.bestj hv1 hv3 (by omega) (by omega) hLa hLb
      have hRfull := ih (f.besti + f.bestsize) ahi (f.bestj + f.bestsize) bhi
        hv2 hv4 h3 h4 hRa hRb
      by_cases hc1 : t < f.besti - alo
      · exact hLfull t hc1
      · by_cases hc2 : t < f.besti - alo + f.bestsize
        · have e1 : alo + t = f.besti + (t - (f.besti - alo)) := by omega
          have e2 : blo + t = f.bestj + (t - (f.besti - alo)) := by omega
          rw [e1, e2]
          exact hv5 (t - (f.besti - alo)) (by omega)
        · have e1 : alo + t = f.besti + f.bestsize + (t - (f.besti - alo) - f.bestsize) := by
            omega
          have e2 : blo + t = f.bestj + f.bestsize + (t - (f.besti - alo) - f.bestsize) := by
            omega
          rw [e1, e2]
          exact hRfull (t - (f.besti - alo) - f.bestsize) (by omega)

/-- If the matched total is the full length of both sides, the inputs
are equal. -/
lemma seqMatches_full (a b : List Char)
    (h : 2 * seqMatches a b = a.length + b.length) : a = b := by
  have hle := matchedTotal_le a b (a.length + b.length + 1) 0 a.length 0 b.length
    (Nat.zero_le _) (Nat.zero_le _) (le_refl _) (le_refl _)
  rw [seqMatches] at h
  have hMa : matchedTotal a b (a.length + b.length + 1) 0 a.length 0 b.length =
      a.length - 0 := by omega
  have hMb : matchedTotal a b (a.length + b.length + 1) 0 a.length 0 b.length =
      b.length - 0 := by omega
  have hsl := matchedTotal_full a b (a.length + b.length + 1) 0 a.length 0 b.length
    (Nat.zero_le _) (Nat.zero_le _) (le_refl _) (le_refl _) hMa hMb
  have hlen : a.length = b.length := by omega
  apply List.ext_get?
  intro n
  by_cases hn : n < a.length
  · have := hsl n (by omega)
    simpa using this
  · rw [List.get?_eq_none.mpr (by omega), List.get?_eq_none.mpr (by omega)]

/-- `stripToken` only deletes characters: the output is never longer,
and it has the same length only when nothing was deleted at all. -/
lemma stripToken_length (l : List Char) :
    (stripToken l).length ≤ l.length ∧
      ((stripToken l).length = l.length → stripToken l = l) := by
  induction l using stripToken.induct with
  | case1 => exact ⟨le_refl _, fun _ => rfl⟩
  | case2 c1 c2 c3 c4 c5 c6 c7 c8 rest hcond ih =>
    rw [stripToken, if_pos hcond]
    refine ⟨by simp only [List.length_cons]; omega, fun heq => by
      simp only [List.length_cons] at heq; omega⟩
  | case3 c1 c2 c3 c4 c5 c6 c7 c8 rest hcond ih =>
    rw [stripToken, if_neg hcond]
    refine ⟨by simp only [List.length_cons] at ih ⊢; omega, fun heq => ?_⟩
    simp only [List.length_cons] at heq ih
    rw [ih.2 (by omega)]
  | case4 c rest hne ih =>
    have heq : stripToken (c :: rest) = c :: stripToken rest := by
      rw [stripToken.eq_def]
      split
      · next habs => exact absurd habs (by simp)
      · next c1 c2 c3 c4 c5 c6 c7 c8 rest' habs =>
        obtain ⟨h1, h2⟩ := List.cons.injEq .. ▸ habs
        exact (hne c1 c2 c3 c4 c5 c6 c7 c8 rest' h1 h2).elim
      · next c' rest' hoth habs =>
        obtain ⟨h1, h2⟩ := List.cons.injEq .. ▸ habs
        rw [h1, h2]
    rw [heq]
    refine ⟨by simp only [List.length_cons]; omega, fun hl => ?_⟩
    simp only [List.length_cons] at hl
    rw [ih.2 (by omega)]

/-- `ratio(a, b) = 1` forces `a = b` (for `b` nonempty, so the
denominator is nonzero). -/
lemma seqRatio_eq_one (a b : List Char) (hb : b ≠ []) (h : seqRatio a b = 1) :
    a = b := by
  have hbl : 0 < b.length := List.length_pos.mpr hb
  have hne0 : a.length + b.length ≠ 0 := by omega
  have hden : ((a.length + b.length : Nat) : ℚ) ≠ 0 := Nat.cast_ne_zero.mpr hne0
  rw [seqRatio, div_eq_one_iff_eq hden] at h
  exact seqMatches_full a b (by exact_mod_cast h)

/-- C1 counterexample: `Foo_aaaaaaaa.pkg` (catalog) and
`Foo_bbbbbbbb.pkg` (target) differ only in their 8-character random
token, yet the computed similarity ratio is `14/23`, not `1.0`: the
code strips the token from the catalog side only — the target is
compared as-is (utils.py:686-688). -/
theorem claim_C1_token_strip_counterexample :
    simScore "Foo_bbbbbbbb.pkg" "Foo_aaaaaaaa.pkg" ≠ 1 ∧
    stripToken ("Foo_aaaaaaaa.pkg" : String).data = ("Foo.pkg" : String).data ∧
    stripToken ("Foo_bbbbbbbb.pkg" : String).data = ("Foo.pkg" : String).data := by
  refine ⟨?_, by decide, by decide⟩
  have hm : seqMatches (stripToken ("Foo_aaaaaaaa.pkg" : String).data)
      ("Foo_bbbbbbbb.pkg" : String).data = 7 := by decide
  have hl1 : (stripToken ("Foo_aaaaaaaa.pkg" : String).data).length = 7 := by decide
  have hl2 : ("Foo_bbbbbbbb.pkg" : String).data.length = 16 := by decide
  rw [simScore, seqRatio, hm, hl1, hl2]
  norm_num

/-- C1 amended: only the catalog side of the comparison is stripped of
the random token; the ratio is exactly `1.0` precisely when the catalog
filename, after token stripping, equals the target filename (in
particular when the catalog name carries an 8-character token and the
target is the same name without one), and a pair of equal-length
distinct names — such as two names carrying different tokens — never
scores `1.0`. -/
theorem claim_C1_token_strip_amended :
    (∀ cat tgt : String, tgt ≠ "" →
        (simScore tgt cat = 1 ↔ stripToken cat.data = tgt.data)) ∧
    (∀ cat tgt : String, tgt ≠ "" → cat.data.length = tgt.data.length →
        cat ≠ tgt → simScore tgt cat ≠ 1) := by
  have hiff : ∀ cat tgt : String, tgt ≠ "" →
      (simScore tgt cat = 1 ↔ stripToken cat.data = tgt.data) := by
    intro cat tgt hne
    have htd : tgt.data ≠ [] := by
      refine fun hd => hne (String.ext ?_)
      rw [hd]
    constructor
    · intro h
      rw [simScore] at h
      exact seqRatio_eq_one _ _ htd h
    · intro h
      rw [simScore, h]
      exact seqRatio_self tgt.data htd
  refine ⟨hiff, ?_⟩
  intro cat tgt hne hlen hcne h
  have hst := (hiff cat tgt hne).mp h
  have hfix : stripToken cat.data = cat.data :=
    (stripToken_length cat.data).2 (by rw [hst]; omega)
  exact hcne (String.ext (by rw [← hfix, hst]))

/-- C1 amended witness: the tokenized catalog name
`Foo-1.0_aaaaaaaa.pkg` strips to the token-less target `Foo-1.0.pkg`
and scores exactly `1.0` against it (via the iff), while the
equal-length pair of distinct names `Foo_aaaaaaaa.pkg` (catalog) and
`Foo_bbbbbbbb.pkg` (target) — two different tokens — does not score
`1.0`. -/
theorem claim_C1_token_strip_amended_witness :
    simScore "Foo-1.0.pkg" "Foo-1.0_aaaaaaaa.pkg" = 1 ∧
    simScore "Foo_bbbbbbbb.pkg" "Foo_aaaaaaaa.pkg" ≠ 1 :=
  ⟨(claim_C1_token_strip_amended.1 "Foo-1.0_aaaaaaaa.pkg" "Foo-1.0.pkg"
      (by decide)).mpr (by decide),
   claim_C1_token_strip_amended.2 "Foo_aaaaaaaa.pkg" "Foo_bbbbbbbb.pkg"
      (by decide) (by decide) (by decide)⟩

end Kpkg
